import Mathlib

/-!
# Verification of the kantotranslate streaming translation core

Shallow embedding of the streaming translation service
(`src/services/geminiService.ts`, `src/unnamed/part_000`) and the
`handleTranslate` UI entry point (`src/App.tsx`).

The heart of the service is the loop

```
let fullText = "";
for await (const chunk of responseStream) {
  const part = c.text;
  if (part) {
    fullText += part;
    const match = fullText.match(/"translatedText":\s*"((?:[^"\\]|\\.)*)"/);
    if (match && match[1]) {
      onChunk(match[1].replace(/\\n/g, '\n').replace(/\\"/g, '"'));
    }
  }
}
return JSON.parse(fullText) as TranslationResult;
```

together with the catch-block classifier

```
if (errorMessage.includes("429")) throw new Error("QUOTA_EXCEEDED");
if (!navigator.onLine) throw new Error("OFFLINE");
throw new Error("UNKNOWN_ERROR");
```

Strings are modelled as `List Char`.  The regular expression above is
deterministic (at every input position at most one alternative of
`[^"\\]|\\.` applies, and undoing a repetition can never make the closing
`"` match), so it is embedded as the structurally recursive scanner
`scanStr` preceded by the literal field name and optional whitespace,
tried at every start position from the left (`extractRaw`), exactly as
`String.prototype.match` does.
-/

/-- Whitespace characters of the regex class `\s` (the ASCII ones; exotic
Unicode whitespace plays no role in any claim). -/
def isWsChar (c : Char) : Bool :=
  c = ' ' || c = '\t' || c = '\n' || c = '\r' || c = '\x0b' || c = '\x0c'

/-- Greedy `\s*`: drop the leading whitespace run. -/
def dropWs : List Char → List Char
  | [] => []
  | c :: r => if isWsChar c then dropWs r else c :: r

/-- The scanner for `((?:[^"\\]|\\.)*)"`: consume characters until the first
quote that is not consumed as the second character of a `\\.` pair; return
the raw consumed span (the capture `match[1]`, escapes untouched) and the
remainder after the closing quote.  `none` when the input ends before a
closing quote is found (including a trailing lone backslash), in which case
the regex attempt at this start position fails. -/
def scanStr : List Char → Option (List Char × List Char)
  | [] => none
  | c :: r =>
    if c = '"' then some ([], r)
    else if c = '\\' then
      match r with
      | [] => none
      | d :: r' => (scanStr r').map (fun p => ('\\' :: d :: p.1, p.2))
    else (scanStr r).map (fun p => (c :: p.1, p.2))

/-- The fourteen letters of `translatedText`. -/
def midLetters : List Char :=
  ['t', 'r', 'a', 'n', 's', 'l', 'a', 't', 'e', 'd', 'T', 'e', 'x', 't']

/-- The literal part `"translatedText":` of the regex (17 characters). -/
def litChars : List Char := '"' :: midLetters ++ ['"', ':']

/-- One attempt of the regex anchored at the head of `l`: the literal
`"translatedText":`, then `\s*`, then an opening quote, then the span
scanner.  Returns the raw capture. -/
def matchAt (l : List Char) : Option (List Char) :=
  if litChars.isPrefixOf l then
    match dropWs (l.drop 17) with
    | c :: r => if c = '"' then (scanStr r).map Prod.fst else none
    | [] => none
  else none

/-- `buffer.match(re)`: try the pattern at every position from the left,
returning the first capture found (leftmost match). -/
def extractRaw : List Char → Option (List Char)
  | [] => none
  | c :: r =>
    match matchAt (c :: r) with
    | some v => some v
    | none => extractRaw r

/-- `.replace(/\\n/g, '\n')`: left-to-right, non-overlapping. -/
def replaceEscN : List Char → List Char
  | [] => []
  | [c] => [c]
  | c :: d :: r =>
    if c = '\\' && d = 'n' then '\n' :: replaceEscN r
    else c :: replaceEscN (d :: r)

/-- `.replace(/\\"/g, '"')`: left-to-right, non-overlapping. -/
def replaceEscQ : List Char → List Char
  | [] => []
  | [c] => [c]
  | c :: d :: r =>
    if c = '\\' && d = '"' then '"' :: replaceEscQ r
    else c :: replaceEscQ (d :: r)

/-- The decoding the source applies to a captured span before handing it to
the progress callback: only `\n` and `\"` are rewritten. -/
def decodeJs (l : List Char) : List Char := replaceEscQ (replaceEscN l)

/-- Extraction as the spec's `extract`: the decoded value of the first
complete quoted `translatedText` span, if any. -/
def extractDecoded (l : List Char) : Option (List Char) :=
  (extractRaw l).map decodeJs

/-- The value actually delivered to `onChunk`, if any: the source guards
with `if (match && match[1])`, so an empty raw capture is never delivered
(empty strings are falsy); a nonempty capture is delivered decoded. -/
def extractUI (l : List Char) : Option (List Char) :=
  match extractRaw l with
  | some v => if v = [] then none else some (decodeJs v)
  | none => none

/-! ## Error kinds and the catch-block classifiers -/

/-- The closed error taxonomy of the service (§7 of the spec). -/
inductive ErrorKind
  | QUOTA_EXCEEDED
  | OFFLINE
  | UNKNOWN_ERROR
  | PARSE_ERROR
  | EMPTY_RESPONSE
  | CONFIG_ERROR
  | SAFETY_BLOCK
  deriving DecidableEq

/-- `String.prototype.includes`: substring test. -/
def hasInfix (pat : List Char) : List Char → Bool
  | [] => pat.isEmpty
  | l@(_ :: t) => pat.isPrefixOf l || hasInfix pat t

/-- The catch block of `translateWithSlangStream`
(`src/unnamed/part_000` lines 105-111, `src/services/geminiService.ts`
lines 240-246): `429` in the message is checked first, then
`navigator.onLine`, else the catch-all. -/
def classifyStream (msg : List Char) (onLine : Bool) : ErrorKind :=
  if hasInfix ("429").data msg then .QUOTA_EXCEEDED
  else if !onLine then .OFFLINE
  else .UNKNOWN_ERROR

/-- The catch block of the legacy non-streaming `translateWithSlang`
(`src/services/geminiService.ts` lines 389-397): `429`, then `403` /
`API_KEY_INVALID`, then `SAFETY` / `blocked`, then `instanceof
SyntaxError`, then `navigator.onLine`, else the catch-all. -/
def classifyLegacy (msg : List Char) (isSyntaxErr : Bool) (onLine : Bool) : ErrorKind :=
  if hasInfix ("429").data msg then .QUOTA_EXCEEDED
  else if hasInfix ("403").data msg || hasInfix ("API_KEY_INVALID").data msg then .CONFIG_ERROR
  else if hasInfix ("SAFETY").data msg || hasInfix ("blocked").data msg then .SAFETY_BLOCK
  else if isSyntaxErr then .PARSE_ERROR
  else if !onLine then .OFFLINE
  else .UNKNOWN_ERROR

/-! ## JSON values, `JSON.stringify` and `JSON.parse`

`JSON.parse` is modelled by a fuelled recursive-descent parser over
`List Char`; `JSON.stringify` by a structural serializer.  Numbers are kept
as raw lexemes (no value in the response schema is numeric, and floating
point is out of scope).  `\uXXXX` escapes are decoded with `Char.ofNat`
(UTF-16 surrogate halves, which Lean's `Char` cannot represent, are
idealized away; they occur in no claim). -/

inductive Json
  | jnull
  | jbool (b : Bool)
  | jnum (lexeme : List Char)
  | jstr (s : List Char)
  | jarr (elems : List Json)
  | jobj (fields : List (List Char × Json))

def hexDigitChar (n : Nat) : Char :=
  if n < 10 then Char.ofNat ('0'.toNat + n) else Char.ofNat ('a'.toNat + (n - 10))

/-- `JSON.stringify`'s escaping of a single character inside a string. -/
def escChar (c : Char) : List Char :=
  if c = '"' then ['\\', '"']
  else if c = '\\' then ['\\', '\\']
  else if c = '\n' then ['\\', 'n']
  else if c = '\r' then ['\\', 'r']
  else if c = '\t' then ['\\', 't']
  else if c = '\x08' then ['\\', 'b']
  else if c = '\x0c' then ['\\', 'f']
  else if c.toNat < 32 then
    ['\\', 'u', '0', '0', hexDigitChar (c.toNat / 16), hexDigitChar (c.toNat % 16)]
  else [c]

def escStr : List Char → List Char
  | [] => []
  | c :: t => escChar c ++ escStr t

mutual

def stringifyJson : Json → List Char
  | .jnull => ['n', 'u', 'l', 'l']
  | .jbool true => ['t', 'r', 'u', 'e']
  | .jbool false => ['f', 'a', 'l', 's', 'e']
  | .jnum lx => lx
  | .jstr s => '"' :: (escStr s ++ ['"'])
  | .jarr es => '[' :: (stringifyElems es ++ [']'])
  | .jobj fs => '\x7b' :: (stringifyFields fs ++ ['\x7d'])

def stringifyElems : List Json → List Char
  | [] => []
  | [e] => stringifyJson e
  | e :: es => stringifyJson e ++ ',' :: stringifyElems es

def stringifyFields : List (List Char × Json) → List Char
  | [] => []
  | [(k, v)] => '"' :: (escStr k ++ ['"']) ++ ':' :: stringifyJson v
  | (k, v) :: fs =>
    '"' :: (escStr k ++ ['"']) ++ ':' :: stringifyJson v ++ ',' :: stringifyFields fs

end

mutual

/-- JSON values free of number literals (every value the response schema
can produce is built from strings, arrays and objects only). -/
def noNum : Json → Bool
  | .jnull => true
  | .jbool _ => true
  | .jnum _ => false
  | .jstr _ => true
  | .jarr es => noNumList es
  | .jobj fs => noNumFields fs

def noNumList : List Json → Bool
  | [] => true
  | e :: es => noNum e && noNumList es

def noNumFields : List (List Char × Json) → Bool
  | [] => true
  | (_, v) :: fs => noNum v && noNumFields fs

end

def hexVal (c : Char) : Option Nat :=
  if '0' ≤ c ∧ c ≤ '9' then some (c.toNat - '0'.toNat)
  else if 'a' ≤ c ∧ c ≤ 'f' then some (c.toNat - 'a'.toNat + 10)
  else if 'A' ≤ c ∧ c ≤ 'F' then some (c.toNat - 'A'.toNat + 10)
  else none

/-- The single-character escapes accepted after a backslash in a JSON string. -/
def unescChar (e : Char) : Option Char :=
  if e = '"' then some '"'
  else if e = '\\' then some '\\'
  else if e = '/' then some '/'
  else if e = 'b' then some '\x08'
  else if e = 'f' then some '\x0c'
  else if e = 'n' then some '\n'
  else if e = 'r' then some '\r'
  else if e = 't' then some '\t'
  else none

/-- Strict JSON string body (after the opening quote): decodes every escape,
rejects invalid escapes and raw control characters. -/
def parseStringBody : List Char → Option (List Char × List Char)
  | [] => none
  | c :: r =>
    if c = '"' then some ([], r)
    else if c = '\\' then
      match r with
      | [] => none
      | 'u' :: h1 :: h2 :: h3 :: h4 :: r2 =>
        match hexVal h1, hexVal h2, hexVal h3, hexVal h4 with
        | some a, some b, some c2, some d =>
          (parseStringBody r2).map
            (fun p => (Char.ofNat (((a * 16 + b) * 16 + c2) * 16 + d) :: p.1, p.2))
        | _, _, _, _ => none
      | e :: r1 =>
        match unescChar e with
        | some u => (parseStringBody r1).map (fun p => (u :: p.1, p.2))
        | none => none
    else if c.toNat < 32 then none
    else (parseStringBody r).map (fun p => (c :: p.1, p.2))

def isNumChar (c : Char) : Bool :=
  ('0' ≤ c && c ≤ '9') || c = '-' || c = '+' || c = '.' || c = 'e' || c = 'E'

mutual

def parseValue : Nat → List Char → Option (Json × List Char)
  | 0, _ => none
  | fu + 1, l =>
    match dropWs l with
    | [] => none
    | c :: r =>
      if c = '"' then (parseStringBody r).map (fun p => (Json.jstr p.1, p.2))
      else if c = '\x7b' then
        match dropWs r with
        | '\x7d' :: r1 => some (.jobj [], r1)
        | _ => (parseFields fu r).map (fun p => (Json.jobj p.1, p.2))
      else if c = '[' then
        match dropWs r with
        | ']' :: r1 => some (.jarr [], r1)
        | _ => (parseElems fu r).map (fun p => (Json.jarr p.1, p.2))
      else if c = 't' then
        match r with
        | 'r' :: 'u' :: 'e' :: r1 => some (.jbool true, r1)
        | _ => none
      else if c = 'f' then
        match r with
        | 'a' :: 'l' :: 's' :: 'e' :: r1 => some (.jbool false, r1)
        | _ => none
      else if c = 'n' then
        match r with
        | 'u' :: 'l' :: 'l' :: r1 => some (.jnull, r1)
        | _ => none
      else if isNumChar c then
        some (.jnum ((c :: r).takeWhile isNumChar), (c :: r).dropWhile isNumChar)
      else none

def parseFields : Nat → List Char → Option (List (List Char × Json) × List Char)
  | 0, _ => none
  | fu + 1, l =>
    match dropWs l with
    | '"' :: r =>
      match parseStringBody r with
      | none => none
      | some (k, r1) =>
        match dropWs r1 with
        | ':' :: r2 =>
          match parseValue fu r2 with
          | none => none
          | some (v, r3) =>
            match dropWs r3 with
            | ',' :: r4 => (parseFields fu r4).map (fun p => ((k, v) :: p.1, p.2))
            | '\x7d' :: r4 => some ([(k, v)], r4)
            | _ => none
        | _ => none
    | _ => none

def parseElems : Nat → List Char → Option (List Json × List Char)
  | 0, _ => none
  | fu + 1, l =>
    match parseValue fu l with
    | none => none
    | some (v, r1) =>
      match dropWs r1 with
      | ',' :: r2 => (parseElems fu r2).map (fun p => (v :: p.1, p.2))
      | ']' :: r2 => some ([v], r2)
      | _ => none

end

/-- `JSON.parse`: parse one value, require only whitespace after it. -/
def parseTop (l : List Char) : Option Json :=
  match parseValue (l.length + 1) l with
  | some (j, rest) => if dropWs rest = [] then some j else none
  | none => none

/-! ## Finalization and the streaming session model -/

/-- The modelled message of the `SyntaxError` thrown by `JSON.parse`.
(The V8 message may carry a character position; a position that happened to
contain the digits `429` is idealized away — the classifier theorems that
depend on the message take it as a hypothesis.) -/
def jsonErrMsg : List Char := ("Unexpected end of JSON input").data

/-- `return JSON.parse(fullText) as TranslationResult` plus the catch block
of the streaming path: the successfully parsed value is returned as-is —
the `as TranslationResult` cast performs no runtime validation — and a
parse failure falls into the generic catch. -/
def finalizeStream (buf : List Char) (onLine : Bool) : Except ErrorKind Json :=
  match parseTop buf with
  | some j => .ok j
  | none => .error (classifyStream jsonErrMsg onLine)

/-- The legacy non-streaming finalization
(`src/services/geminiService.ts` lines 383-397): an empty `response.text`
throws `EMPTY_RESPONSE` *inside* the try, so it is re-classified by the
same catch block; a `JSON.parse` failure is a `SyntaxError`. -/
def legacyFinalize (respText : Option (List Char)) (onLine : Bool) : Except ErrorKind Json :=
  let t := respText.getD []
  if t = [] then .error (classifyLegacy ("EMPTY_RESPONSE").data false onLine)
  else
    match parseTop t with
    | some j => .ok j
    | none => .error (classifyLegacy jsonErrMsg true onLine)

/-- What one run of the remote stream delivers: its fragments in order, and
whether iteration ended normally or threw a transport error (carrying a
message) after them. -/
inductive StreamOutcome
  | success (fragments : List (List Char))
  | failure (fragments : List (List Char)) (msg : List Char)

/-- The accumulation loop (`fullText += part` guarded by `if (part)`). -/
def accumAll (acc : List Char) : List (List Char) → List Char
  | [] => acc
  | f :: fs => if f = [] then accumAll acc fs else accumAll (acc ++ f) fs

/-- The sequence of values passed to `onChunk` while the loop processes the
fragments, starting from accumulated buffer `acc`. -/
def runTraceGo (acc : List Char) : List (List Char) → List (List Char)
  | [] => []
  | f :: fs =>
    if f = [] then runTraceGo acc fs
    else
      match extractUI (acc ++ f) with
      | some d => d :: runTraceGo (acc ++ f) fs
      | none => runTraceGo (acc ++ f) fs

def runTrace (fs : List (List Char)) : List (List Char) := runTraceGo [] fs

/-- The accumulated buffers at which the loop attempts extraction (one per
nonempty fragment). -/
def accumsAfter (acc : List Char) : List (List Char) → List (List Char)
  | [] => []
  | f :: fs =>
    if f = [] then accumsAfter acc fs else (acc ++ f) :: accumsAfter (acc ++ f) fs

/-- `translateWithSlangStream` as a function of the stream's behaviour and
the connectivity state: the final result (success value or classified
error) together with the list of `onChunk` invocations. -/
def translateWithSlangStream (outcome : StreamOutcome) (onLine : Bool) :
    Except ErrorKind Json × List (List Char) :=
  match outcome with
  | .success fs => (finalizeStream (accumAll [] fs) onLine, runTrace fs)
  | .failure fs msg => (.error (classifyStream msg onLine), runTrace fs)

/-- `translateWithSlang` (`src/unnamed/part_000` lines 115-122): delegates
to the streaming version with a no-op `onChunk` and returns its result. -/
def translateWithSlang (outcome : StreamOutcome) (onLine : Bool) :
    Except ErrorKind Json :=
  (translateWithSlangStream outcome onLine).1

/-! ## The schema-valid result objects and their serialization -/

structure SlangEntry where
  term : List Char
  meaning : List Char
  context : List Char

/-- A schema-valid response object: the four required fields plus the two
optional ones, with the shapes declared in `responseSchema`. -/
structure TranslationResult where
  translatedText : List Char
  transliteration : Option (List Char)
  explanation : List Char
  slangUsed : List SlangEntry
  vibe : List Char
  detectedLanguage : Option (List Char)

def SlangEntry.toJson (e : SlangEntry) : Json :=
  .jobj [(("term").data, .jstr e.term), (("meaning").data, .jstr e.meaning),
    (("context").data, .jstr e.context)]

/-- The JSON object a schema-honouring model emits, fields in schema order. -/
def TranslationResult.toJson (o : TranslationResult) : Json :=
  .jobj
    ([(("translatedText").data, Json.jstr o.translatedText)] ++
      (match o.transliteration with
        | some t => [(("transliteration").data, Json.jstr t)]
        | none => []) ++
      [(("explanation").data, Json.jstr o.explanation),
        (("slangUsed").data, Json.jarr (o.slangUsed.map SlangEntry.toJson)),
        (("vibe").data, Json.jstr o.vibe)] ++
      (match o.detectedLanguage with
        | some t => [(("detectedLanguage").data, Json.jstr t)]
        | none => []))

/-- `serialize(O)`: the canonical wire form of a schema-valid object. -/
def serializeResult (o : TranslationResult) : List Char := stringifyJson o.toJson

/-- Characters whose `JSON.stringify` escaping survives the source's partial
decode (`replace(/\\n/g,..).replace(/\\"/g,..)`) unchanged: everything
except a backslash and except control characters other than the newline. -/
def safeTextChar (c : Char) : Bool :=
  c ≠ '\\' && (c = '\n' || 32 ≤ c.toNat)

/-- The intermediate form of an escaped safe text after the `\n`-replace has
run and before the `\"`-replace runs. -/
def escQOnly : List Char → List Char
  | [] => []
  | c :: t => (if c = '"' then ['\\', '"'] else [c]) ++ escQOnly t

/-! ## The UI entry point `handleTranslate` (`src/App.tsx` lines 194-258) -/

structure LastState where
  text : List Char
  source : List Char
  target : List Char
  vibe : List Char
  deriving DecidableEq

structure AppState where
  inputText : List Char
  sourceLang : List Char
  targetLang : List Char
  vibeMode : List Char
  lastTranslated : Option LastState
  resultPresent : Bool
  isOnline : Bool

/-- What one invocation of `handleTranslate` does before any asynchronous
work: nothing, set the `OFFLINE` error, or call the translation service. -/
inductive TranslateStep
  | noop
  | failOffline
  | callService (text source target vibe : List Char)
  deriving DecidableEq

/-- `inputText.trim()`. -/
def trimChars (l : List Char) : List Char :=
  ((l.dropWhile (fun c => isWsChar c)).reverse.dropWhile (fun c => isWsChar c)).reverse

/-- The guard sequence of `handleTranslate`: empty-after-trim return, the
duplicate-request return (only when a result is present), the `isOnline`
fail-fast, then the service call. -/
def handleTranslate (s : AppState) : TranslateStep :=
  let t := trimChars s.inputText
  if t = [] then .noop
  else if s.lastTranslated = some ⟨t, s.sourceLang, s.targetLang, s.vibeMode⟩ ∧
      s.resultPresent = true then .noop
  else if s.isOnline = false then .failOffline
  else .callService t s.sourceLang s.targetLang s.vibeMode

/-! ## The prompt builder (`src/services/geminiService.ts` lines 133-175) -/

def stylisticContext (vibeMode targetLang : List Char) : List Char :=
  if vibeMode = ("formal").data then
    ("Translate using formal, grammatically perfect, and standard \"textbook\" ").data ++
      targetLang ++
      (". Use full words, no contractions, and proper sentence structure. Avoid code-switching.").data
  else if vibeMode = ("casual").data then
    ("Translate using \"Real Talk\" ").data ++ targetLang ++
      (". \n    - PRIORITY: Brevity and natural flow. \n    - STRUCTURE: Use Predicate-First structure. \n    - CONTRACTIONS: Use native shortcuts like \"\x27yung\", \"\x27to\", \"dun\", \"n\x27yo\". \n    - VIBE: Sound like a native speaker. Drop redundant pronouns.").data
  else if vibeMode = ("taglish").data then
    ("Translate into modern \"Urban Taglish\" (Manila style). \n    - MIXING: Seamlessly blend English and Tagalog as urban Filipinos do. \n    - STYLE: Use modern inflections. \n    - SLANG: Include current social media terms. \n    - FLOW: It should sound like a casual chat message.").data
  else []

/-- `sourceLang === 'auto' ? "... DETECT IT automatically" : "the source
language is ${sourceLang}"`. -/
def sourceContext (sourceLang : List Char) : List Char :=
  if sourceLang = ("auto").data then
    ("the source language is unknown, please DETECT IT automatically").data
  else ("the source language is ").data ++ sourceLang

def promptMid1 : List Char :=
  (".\n    \n    STYLE REQUIREMENT: \n    ").data

def promptMid2 : List Char :=
  ("\n    \n    SMART CORRECTION & SANITY GUARD:\n    - The source text may contain spelling errors. Predict the intended word.\n    - CRITICAL: DO NOT sexualize the translation unless the source text is explicitly and unmistakably sexual. \n    - If the user uses \"shit\" or other common expletives as intensifiers (e.g., \"intense shit\"), treat them as exclamations of intensity or the literal act. \n    - NEVER map \"shit\" to anatomical references unless specified.\n    \n    TRANSLITERATION REQUIREMENT:\n    - If ").data

def promptMid3 : List Char :=
  (" uses non-Latin characters (like Chinese Hanzi, Japanese Kanji/Kana, or Korean Hangul), you MUST provide a phonetic pronunciation in the \x27transliteration\x27 field (e.g., Pinyin for Chinese, Romaji for Japanese). \n    - If the target language uses Latin script, leave \x27transliteration\x27 empty or null.\n\n    CRITICAL FOR TAGALOG: \n    - If mode is NOT formal, NEVER use \"ay\" as a linker if it can be avoided. \n    - Use \"parang\" instead of \"tila\".\n    \n    Text to translate: \"").data

/-- The full directive string of the streaming path. -/
def buildPrompt (text sourceLang targetLang vibeMode : List Char) : List Char :=
  ("\n    Translate the following text from ").data ++ sourceContext sourceLang ++
    (" to ").data ++ targetLang ++ promptMid1 ++ stylisticContext vibeMode targetLang ++
    promptMid2 ++ targetLang ++ promptMid3 ++ text ++ ("\"\n  ").data

/-! ## Unfolding lemmas for the scanner -/

theorem scanStr_nil : scanStr [] = none := by simp [scanStr]

theorem scanStr_quote (r : List Char) : scanStr ('"' :: r) = some ([], r) := by
  rw [scanStr.eq_def]; simp

theorem scanStr_bs_nil : scanStr ['\\'] = none := by simp [scanStr]

theorem scanStr_bs (d : Char) (r : List Char) :
    scanStr ('\\' :: d :: r) = (scanStr r).map (fun p => ('\\' :: d :: p.1, p.2)) := by
  simp [scanStr]

theorem scanStr_other (c : Char) (r : List Char) (hq : c ≠ '"') (hb : c ≠ '\\') :
    scanStr (c :: r) = (scanStr r).map (fun p => (c :: p.1, p.2)) := by
  rw [scanStr.eq_def]; simp only [if_neg hq, if_neg hb]

/-- Appending to the buffer cannot change the span found by a successful scan. -/
theorem scanStr_append (s : List Char) : ∀ (l v r : List Char),
    scanStr l = some (v, r) → scanStr (l ++ s) = some (v, r ++ s) := by
  intro l
  induction l using scanStr.induct with
  | case1 => intro v r h; rw [scanStr_nil] at h; exact absurd h (by simp)
  | case2 r' =>
    intro v rr h
    rw [scanStr_quote] at h
    obtain ⟨h1, h2⟩ := Prod.mk.injEq .. ▸ Option.some.inj h
    subst h1; subst h2
    rw [List.cons_append, scanStr_quote]
  | case3 hq =>
    intro v rr h
    rw [scanStr_bs_nil] at h
    exact absurd h (by simp)
  | case4 d r' hq ih =>
    intro v rr h
    rw [scanStr_bs] at h
    obtain ⟨⟨p1, p2⟩, hp, he⟩ := Option.map_eq_some'.mp h
    cases he
    rw [List.cons_append, List.cons_append, scanStr_bs, ih p1 p2 hp]
    rfl
  | case5 d r' hq hb ih =>
    intro v rr h
    rw [scanStr_other d r' hq hb] at h
    obtain ⟨⟨p1, p2⟩, hp, he⟩ := Option.map_eq_some'.mp h
    cases he
    rw [List.cons_append, scanStr_other d (r' ++ s) hq hb, ih p1 p2 hp]
    rfl

/-- Scanning a quote-and-backslash-free span followed by a closing quote
returns exactly that span. -/
theorem scanStr_no_specials : ∀ (w : List Char), (∀ c ∈ w, c ≠ '"' ∧ c ≠ '\\') →
    ∀ (z : List Char), scanStr (w ++ '"' :: z) = some (w, z) := by
  intro w
  induction w with
  | nil => intro _ z; rw [List.nil_append, scanStr_quote]
  | cons c t ih =>
    intro hw z
    have hc := hw c (List.mem_cons_self c t)
    rw [List.cons_append, scanStr_other c _ hc.1 hc.2,
      ih (fun d hd => hw d (List.mem_cons_of_mem c hd)) z]
    rfl

theorem midLetters_no_specials : ∀ c ∈ midLetters, c ≠ '"' ∧ c ≠ '\\' := by decide

/-- Wherever the scan starts, a later `"<letters>"` region (two bare quotes
separated by quote/backslash-free letters) forces the scan to stop: a scan
over a buffer containing such a region never fails. -/
theorem scan_stops (z : List Char) : ∀ (n : Nat) (x : List Char), x.length ≤ n →
    scanStr (x ++ '"' :: (midLetters ++ '"' :: z)) ≠ none := by
  intro n
  induction n with
  | zero =>
    intro x hx
    rw [List.length_eq_zero.mp (Nat.le_zero.mp hx), List.nil_append, scanStr_quote]
    simp
  | succ n ih =>
    intro x hx
    cases x with
    | nil => rw [List.nil_append, scanStr_quote]; simp
    | cons c t =>
      by_cases hq : c = '"'
      · subst hq; rw [List.cons_append, scanStr_quote]; simp
      · by_cases hb : c = '\\'
        · subst hb
          cases t with
          | nil =>
            rw [List.singleton_append, scanStr_bs,
              scanStr_no_specials midLetters midLetters_no_specials z]
            simp
          | cons d t' =>
            rw [List.cons_append, List.cons_append, scanStr_bs]
            have ht' : t'.length ≤ n := by
              simp only [List.length_cons] at hx; omega
            intro hcon
            exact ih t' ht' (Option.map_eq_none'.mp hcon)
        · rw [List.cons_append, scanStr_other c _ hq hb]
          have ht : t.length ≤ n := by
            simp only [List.length_cons] at hx; omega
          intro hcon
          exact ih t ht (Option.map_eq_none'.mp hcon)

/-! ## Unfolding lemmas for whitespace skipping -/

theorem dropWs_nil : dropWs [] = [] := rfl

theorem dropWs_cons_ws {c : Char} (h : isWsChar c = true) (r : List Char) :
    dropWs (c :: r) = dropWs r := by simp [dropWs, h]

theorem dropWs_cons_not_ws {c : Char} (h : isWsChar c = false) (r : List Char) :
    dropWs (c :: r) = c :: r := by simp [dropWs, h]

/-- A nonempty whitespace-skip result is stable under appending. -/
theorem dropWs_append : ∀ (l : List Char) {c : Char} {r : List Char},
    dropWs l = c :: r → ∀ s, dropWs (l ++ s) = c :: (r ++ s) := by
  intro l
  induction l with
  | nil => intro c r h s; rw [dropWs_nil] at h; exact absurd h (by simp)
  | cons d t ih =>
    intro c r h s
    by_cases hw : isWsChar d
    · rw [dropWs_cons_ws hw] at h
      rw [List.cons_append, dropWs_cons_ws hw]
      exact ih h s
    · rw [dropWs_cons_not_ws (Bool.not_eq_true _ ▸ hw)] at h
      cases h
      rw [List.cons_append, dropWs_cons_not_ws (Bool.not_eq_true _ ▸ hw)]

/-- If the whitespace skip empties the buffer, every character was whitespace. -/
theorem dropWs_eq_nil_all_ws : ∀ (l : List Char), dropWs l = [] →
    ∀ c ∈ l, isWsChar c = true := by
  intro l
  induction l with
  | nil => intro _ c hc; exact absurd hc (List.not_mem_nil c)
  | cons d t ih =>
    intro h c hc
    by_cases hw : isWsChar d
    · rw [dropWs_cons_ws hw] at h
      rcases List.mem_cons.mp hc with rfl | hct
      · exact hw
      · exact ih h c hct
    · rw [dropWs_cons_not_ws (Bool.not_eq_true _ ▸ hw)] at h
      exact absurd h (by simp)

/-- Splitting view of `dropWs`: the input is an all-whitespace prefix followed
by the result. -/
theorem dropWs_decomp : ∀ (l : List Char),
    ∃ p, l = p ++ dropWs l ∧ ∀ c ∈ p, isWsChar c = true := by
  intro l
  induction l with
  | nil => exact ⟨[], rfl, by simp⟩
  | cons d t ih =>
    by_cases hw : isWsChar d
    · obtain ⟨p, hp, hws⟩ := ih
      refine ⟨d :: p, ?_, ?_⟩
      · rw [dropWs_cons_ws hw, List.cons_append, ← hp]
      · intro c hc
        rcases List.mem_cons.mp hc with rfl | hcp
        · exact hw
        · exact hws c hcp
    · exact ⟨[], by rw [dropWs_cons_not_ws (Bool.not_eq_true _ ▸ hw), List.nil_append], by simp⟩

/-! ## Characterization of one match attempt -/

theorem litChars_length : litChars.length = 17 := by decide

theorem matchAt_of_not_lit {l : List Char} (h : ¬ litChars.isPrefixOf l) :
    matchAt l = none := by
  simp [matchAt, h]

theorem matchAt_elim {l v : List Char} (h : matchAt l = some v) :
    litChars.isPrefixOf l = true ∧
      ∃ r rest, dropWs (l.drop 17) = '"' :: r ∧ scanStr r = some (v, rest) := by
  by_cases hp : litChars.isPrefixOf l
  · refine ⟨hp, ?_⟩
    unfold matchAt at h
    rw [if_pos hp] at h
    rcases hd : dropWs (l.drop 17) with _ | ⟨c, r⟩
    · rw [hd] at h; exact absurd h (by simp)
    · rw [hd] at h
      have h' : (if c = '"' then (scanStr r).map Prod.fst else none) = some v := h
      by_cases hc : c = '"'
      · subst hc
        rw [if_pos rfl] at h'
        obtain ⟨⟨p1, p2⟩, hs, he⟩ := Option.map_eq_some'.mp h'
        cases he
        exact ⟨r, p2, rfl, hs⟩
      · rw [if_neg hc] at h'; exact absurd h' (by simp)
  · rw [matchAt_of_not_lit hp] at h; exact absurd h (by simp)

theorem matchAt_intro {l v r rest : List Char} (hp : litChars.isPrefixOf l = true)
    (hd : dropWs (l.drop 17) = '"' :: r) (hs : scanStr r = some (v, rest)) :
    matchAt l = some v := by
  unfold matchAt
  rw [if_pos hp, hd]
  show (if ('"' : Char) = '"' then (scanStr r).map Prod.fst else none) = some v
  rw [if_pos rfl, hs]
  rfl

theorem matchAt_none_of_head_ne {l : List Char} {c : Char} {r : List Char}
    (hp : litChars.isPrefixOf l = true) (hd : dropWs (l.drop 17) = c :: r)
    (hc : c ≠ '"') : matchAt l = none := by
  unfold matchAt
  rw [if_pos hp, hd]
  show (if c = '"' then (scanStr r).map Prod.fst else none) = none
  rw [if_neg hc]

/-- A successful match attempt is stable under appending to the buffer. -/
theorem matchAt_append {l v : List Char} (h : matchAt l = some v) (s : List Char) :
    matchAt (l ++ s) = some v := by
  obtain ⟨hp, r, rest, hd, hs⟩ := matchAt_elim h
  have hpf : litChars <+: l := List.isPrefixOf_iff_prefix.mp hp
  have hlen : 17 ≤ l.length := litChars_length ▸ hpf.length_le
  have hp2 : litChars.isPrefixOf (l ++ s) :=
    List.isPrefixOf_iff_prefix.mpr (hpf.trans (List.prefix_append l s))
  have hdrop : (l ++ s).drop 17 = l.drop 17 ++ s := List.drop_append_of_le_length hlen
  exact matchAt_intro hp2 (by rw [hdrop]; exact dropWs_append _ hd s)
    (scanStr_append s r v rest hs)

/-- A successful match attempt starts with the field-name literal. -/
theorem matchAt_some_decomp {l v : List Char} (h : matchAt l = some v) :
    l = litChars ++ l.drop 17 := by
  obtain ⟨hp, _, _, _, _⟩ := matchAt_elim h
  have hpf : litChars <+: l := List.isPrefixOf_iff_prefix.mp hp
  conv_lhs => rw [← List.take_append_drop 17 l]
  rw [← litChars_length, ← List.prefix_iff_eq_take.mp hpf, litChars_length]

/-- The field-name literal `"translatedText":` cannot overlap itself at any
shift `1 ≤ k ≤ 16`. -/
theorem lit_no_overlap : ∀ k, k < 17 → 0 < k →
    litChars.drop k ≠ litChars.take (17 - k) := by decide

/-- If the literal occurs both at the head of `l` and at a positive offset,
that offset is at least the literal's length. -/
theorem lit_offset_ge {a T l : List Char} (hl : l = a ++ (litChars ++ T))
    (hp : litChars.isPrefixOf l = true) : a = [] ∨ 17 ≤ a.length := by
  by_cases ha : a = []
  · exact Or.inl ha
  · right
    by_contra hlt
    push_neg at hlt
    have hk1 : 0 < a.length := List.length_pos.mpr ha
    have hk2 : a.length < 17 := by omega
    have hpf : litChars <+: l := List.isPrefixOf_iff_prefix.mp hp
    have htake : litChars = l.take 17 := by
      have := List.prefix_iff_eq_take.mp hpf
      rwa [litChars_length] at this
    have htake2 : l.take 17 = a ++ (litChars ++ T).take (17 - a.length) := by
      rw [hl, List.take_append_eq_append_take, List.take_of_length_le (le_of_lt hk2)]
    have htake3 : (litChars ++ T).take (17 - a.length) = litChars.take (17 - a.length) := by
      apply List.take_append_of_le_length
      rw [litChars_length]; omega
    have hlit : litChars = a ++ litChars.take (17 - a.length) :=
      calc litChars = l.take 17 := htake
        _ = a ++ (litChars ++ T).take (17 - a.length) := htake2
        _ = a ++ litChars.take (17 - a.length) := by rw [htake3]
    have hdrop : litChars.drop a.length = litChars.take (17 - a.length) := by
      conv_lhs => rw [hlit]
      exact List.drop_left a _
    exact lit_no_overlap a.length hk2 hk1 hdrop

/-- The decisive lemma: a failed match attempt at the head of a buffer that
contains, strictly further right, a full occurrence of the field-name
literal, keeps failing no matter what is appended.  (Without the later
occurrence this is false: the attempt could be pending inside an unclosed
string and succeed later.) -/
theorem matchAt_fail_persist {a T l : List Char} (hl : l = a ++ (litChars ++ T))
    (ha : a ≠ []) (h : matchAt l = none) (s : List Char) : matchAt (l ++ s) = none := by
  have hllen : 17 ≤ l.length := by
    rw [hl, List.length_append, List.length_append, litChars_length]
    omega
  by_cases hp : litChars.isPrefixOf l
  · -- the literal also matches at the head; the offset of the inner
    -- occurrence is ≥ 17, so l.drop 17 still contains a full literal
    rcases lit_offset_ge hl hp with rfl | h17
    · exact absurd rfl ha
    · have hd17 : l.drop 17 = a.drop 17 ++ (litChars ++ T) := by
        rw [hl]; exact List.drop_append_of_le_length h17
      -- head structure of l as literal ++ rest
      have hpf : litChars <+: l := List.isPrefixOf_iff_prefix.mp hp
      have hp2 : litChars.isPrefixOf (l ++ s) :=
        List.isPrefixOf_iff_prefix.mpr (hpf.trans (List.prefix_append l s))
      have hdropapp : (l ++ s).drop 17 = l.drop 17 ++ s :=
        List.drop_append_of_le_length hllen
      -- analyse why the first attempt failed
      unfold matchAt at h
      rw [if_pos hp] at h
      rcases hd : dropWs (l.drop 17) with _ | ⟨c, r⟩
      · -- impossible: the inner literal's quote is not whitespace
        exfalso
        have hq : '"' ∈ l.drop 17 := by
          rw [hd17]
          exact List.mem_append_right _ (List.mem_append_left _ (List.mem_cons_self _ _))
        have := dropWs_eq_nil_all_ws (l.drop 17) hd '"' hq
        simp [isWsChar] at this
      · rw [hd] at h
        have h' : (if c = '"' then (scanStr r).map Prod.fst else none) = none := h
        by_cases hc : c = '"'
        · subst hc
          rw [if_pos rfl] at h'
          -- the scan after the opening quote cannot fail: it meets the inner
          -- literal's quotes
          exfalso
          rcases hsc : scanStr r with _ | p
          · -- derive the shape of r and contradict via scan_stops
            obtain ⟨pw, hpw, hws⟩ := dropWs_decomp (l.drop 17)
            rw [hd] at hpw
            rw [hd17] at hpw
            -- pw ++ '"' :: r = a.drop 17 ++ (litChars ++ T)
            rcases List.append_eq_append_iff.mp hpw.symm with ⟨a', ha1, ha2⟩ | ⟨c', hc1, hc2⟩
            · -- pw = a.drop 17 ++ a' and a' ++ (litChars ++ T) = '"' :: r
              rcases a' with _ | ⟨e, a''⟩
              · -- r is the literal's tail: the scan stops at the inner
                -- closing quote
                rw [List.nil_append] at ha2
                have hr : r = midLetters ++ '"' :: (':' :: T) := by
                  have : litChars ++ T = '"' :: (midLetters ++ '"' :: (':' :: T)) := by
                    simp [litChars]
                  rw [this] at ha2
                  exact (List.cons.injEq .. ▸ ha2).2
                rw [hr, scanStr_no_specials midLetters midLetters_no_specials] at hsc
                simp at hsc
              · -- r contains the whole inner literal further right
                have he : e = '"' ∧ r = a'' ++ (litChars ++ T) := by
                  rw [List.cons_append] at ha2
                  exact ⟨(List.cons.injEq .. ▸ ha2).1.symm, (List.cons.injEq .. ▸ ha2).2⟩
                have hr : r = a'' ++ ('"' :: (midLetters ++ '"' :: (':' :: T))) := by
                  rw [he.2]
                  simp [litChars]
                rw [hr] at hsc
                exact scan_stops (':' :: T) a''.length a'' le_rfl hsc
            · -- '"' :: r extends past pw inside the whitespace prefix:
              -- impossible, the literal's head quote is not whitespace
              rcases c' with _ | ⟨e, c''⟩
              · rw [List.append_nil] at hc1
                subst hc1
                rw [List.nil_append] at hc2
                have hr : r = midLetters ++ '"' :: (':' :: T) := by
                  have : litChars ++ T = '"' :: (midLetters ++ '"' :: (':' :: T)) := by
                    simp [litChars]
                  rw [this] at hc2
                  exact (List.cons.injEq .. ▸ hc2).2.symm
                rw [hr, scanStr_no_specials midLetters midLetters_no_specials] at hsc
                simp at hsc
              · have he : '"' = e := by
                  have : litChars ++ T = '"' :: (midLetters ++ '"' :: (':' :: T)) := by
                    simp [litChars]
                  rw [this, List.cons_append] at hc2
                  exact (List.cons.injEq .. ▸ hc2).1
                have hmem : e ∈ pw := by
                  rw [hc1]
                  exact List.mem_append_right _ (List.mem_cons_self _ _)
                have := hws e hmem
                rw [← he] at this
                simp [isWsChar] at this
          · rw [hsc] at h'; simp at h'
        · -- the first non-whitespace character after the colon is not a
          -- quote; that character is unchanged by appending
          have hd2 : dropWs ((l ++ s).drop 17) = c :: (r ++ s) := by
            rw [hdropapp]
            exact dropWs_append _ hd s
          exact matchAt_none_of_head_ne hp2 hd2 hc
  · -- the literal does not match at the head; since the buffer is at least
    -- 17 characters long this is a definite character mismatch
    have hp2 : ¬ litChars.isPrefixOf (l ++ s) := by
      intro hcon
      apply hp
      have hpf : litChars <+: l ++ s := List.isPrefixOf_iff_prefix.mp hcon
      have htk : litChars = (l ++ s).take 17 := by
        have := List.prefix_iff_eq_take.mp hpf
        rwa [litChars_length] at this
      rw [List.take_append_of_le_length hllen] at htk
      apply List.isPrefixOf_iff_prefix.mpr
      rw [List.prefix_iff_eq_take, litChars_length]
      exact htk
    exact matchAt_of_not_lit hp2

/-! ## Leftmost extraction and its stability -/

theorem extractRaw_nil : extractRaw [] = none := rfl

theorem extractRaw_cons (c : Char) (r : List Char) :
    extractRaw (c :: r) =
      match matchAt (c :: r) with
      | some v => some v
      | none => extractRaw r := by
  rw [extractRaw.eq_def]

/-- A successful extraction exhibits a successful match attempt at some
position. -/
theorem extractRaw_decomp : ∀ {l v : List Char}, extractRaw l = some v →
    ∃ a m, l = a ++ m ∧ matchAt m = some v := by
  intro l
  induction l with
  | nil => intro v h; rw [extractRaw_nil] at h; exact absurd h (by simp)
  | cons c r ih =>
    intro v h
    rw [extractRaw_cons] at h
    rcases hm : matchAt (c :: r) with _ | w
    · rw [hm] at h
      obtain ⟨a, m, hr, hmm⟩ := ih h
      exact ⟨c :: a, m, by rw [hr, List.cons_append], hmm⟩
    · rw [hm] at h
      cases h
      exact ⟨[], c :: r, by rw [List.nil_append], hm⟩

/-- **Stability of extraction.**  Once the partial-field extractor finds a
value in the buffer, appending further streamed fragments can never change
that value: the extractor's non-absent result is constant from its first
occurrence on. -/
theorem extractRaw_stable : ∀ (b : List Char) {v : List Char},
    extractRaw b = some v → ∀ s, extractRaw (b ++ s) = some v := by
  intro b
  induction b with
  | nil => intro v h; rw [extractRaw_nil] at h; exact absurd h (by simp)
  | cons c r ih =>
    intro v h s
    rw [extractRaw_cons] at h
    rw [List.cons_append, extractRaw_cons]
    rcases hm : matchAt (c :: r) with _ | w
    · rw [hm] at h
      obtain ⟨a, m, hr, hmm⟩ := extractRaw_decomp h
      have hdec : m = litChars ++ m.drop 17 := matchAt_some_decomp hmm
      have hshape : c :: r = (c :: a) ++ (litChars ++ m.drop 17) := by
        rw [List.cons_append, ← hdec, ← hr]
      have hpersist := matchAt_fail_persist hshape (by simp) hm s
      rw [List.cons_append] at hpersist
      rw [hpersist]
      exact ih h s
    · rw [hm] at h
      cases h
      have happ := matchAt_append hm s
      rw [List.cons_append] at happ
      rw [happ]

/-! ## The callback trace -/

theorem extractRaw_of_extractUI {l v : List Char} (h : extractUI l = some v) :
    ∃ raw, extractRaw l = some raw ∧ raw ≠ [] ∧ v = decodeJs raw := by
  rcases he : extractRaw l with _ | raw
  · simp only [extractUI, he] at h
    exact Option.noConfusion h
  · simp only [extractUI, he] at h
    by_cases hz : raw = []
    · rw [if_pos hz] at h; exact absurd h (by simp)
    · rw [if_neg hz] at h
      exact ⟨raw, rfl, hz, (Option.some.inj h).symm⟩

theorem extractUI_of_extractRaw {l raw : List Char} (h : extractRaw l = some raw)
    (hz : raw ≠ []) : extractUI l = some (decodeJs raw) := by
  simp only [extractUI, h, if_neg hz]

/-- Every value the loop passes to the callback after the extractor has once
succeeded on the accumulated buffer is the decoding of that same capture. -/
theorem runTraceGo_const : ∀ (fs : List (List Char)) (acc raw : List Char),
    extractRaw acc = some raw →
    ∀ w ∈ runTraceGo acc fs, w = decodeJs raw := by
  intro fs
  induction fs with
  | nil => intro acc raw _ w hw; simp [runTraceGo] at hw
  | cons f fs ih =>
    intro acc raw hacc w hw
    simp only [runTraceGo] at hw
    by_cases hf : f = []
    · rw [if_pos hf] at hw
      exact ih acc raw hacc w hw
    · rw [if_neg hf] at hw
      have hext : extractRaw (acc ++ f) = some raw := extractRaw_stable acc hacc f
      rcases hui : extractUI (acc ++ f) with _ | d
      · rw [hui] at hw
        exact ih (acc ++ f) raw hext w hw
      · rw [hui] at hw
        obtain ⟨raw2, he2, hne2, hd⟩ := extractRaw_of_extractUI hui
        rw [hext] at he2
        cases Option.some.inj he2
        rcases List.mem_cons.mp hw with rfl | hw2
        · exact hd
        · exact ih (acc ++ f) raw hext w hw2

/-- Any two values delivered to the callback during one session are equal. -/
theorem runTraceGo_all_eq : ∀ (fs : List (List Char)) (acc v w : List Char),
    v ∈ runTraceGo acc fs → w ∈ runTraceGo acc fs → v = w := by
  intro fs
  induction fs with
  | nil => intro acc v w hv _; simp [runTraceGo] at hv
  | cons f fs ih =>
    intro acc v w hv hw
    simp only [runTraceGo] at hv hw
    by_cases hf : f = []
    · rw [if_pos hf] at hv hw
      exact ih acc v w hv hw
    · rw [if_neg hf] at hv hw
      rcases hui : extractUI (acc ++ f) with _ | d
      · rw [hui] at hv hw
        exact ih (acc ++ f) v w hv hw
      · rw [hui] at hv hw
        obtain ⟨raw, he, hne, hd⟩ := extractRaw_of_extractUI hui
        have hconst := runTraceGo_const fs (acc ++ f) raw he
        rcases List.mem_cons.mp hv with rfl | hv2 <;>
          rcases List.mem_cons.mp hw with rfl | hw2
        · rfl
        · rw [hd]; exact (hconst w hw2).symm
        · rw [hconst v hv2, ← hd]
        · rw [hconst v hv2, hconst w hw2]

theorem runTrace_all_eq {fs : List (List Char)} {v w : List Char}
    (hv : v ∈ runTrace fs) (hw : w ∈ runTrace fs) : v = w :=
  runTraceGo_all_eq fs [] v w hv hw

/-! ## Claims C3 and C7: callback/extraction behaviour while streaming -/

/-- C3: Monotonicity of extraction.  For buffers ordered by prefix, the
non-absent results of `extract` are non-decreasing in length and each is a
prefix of the next (in this implementation they are in fact all equal, by
`extractRaw_stable`); and the progress callback is never invoked with a
value that decodes to fewer characters than a previous invocation in the
same session (all delivered values are equal). -/
theorem C3_extraction_monotone :
    (∀ b1 b2 v1 v2 : List Char, b1 <+: b2 →
      extractDecoded b1 = some v1 → extractDecoded b2 = some v2 →
      v1.length ≤ v2.length ∧ v1 <+: v2) ∧
    (∀ fs : List (List Char), ∀ i j : Nat, ∀ hi : i < (runTrace fs).length,
      ∀ hj : j < (runTrace fs).length, i ≤ j →
      ((runTrace fs).get ⟨i, hi⟩).length ≤ ((runTrace fs).get ⟨j, hj⟩).length) := by
  constructor
  · intro b1 b2 v1 v2 hpre h1 h2
    obtain ⟨t, rfl⟩ := hpre
    rcases hr : extractRaw b1 with _ | raw
    · rw [extractDecoded, hr] at h1; exact absurd h1 (by simp)
    · have h1' : v1 = decodeJs raw := by
        rw [extractDecoded, hr] at h1
        exact (Option.some.inj h1).symm
      have hst := extractRaw_stable b1 hr t
      have h2' : v2 = decodeJs raw := by
        rw [extractDecoded, hst] at h2
        exact (Option.some.inj h2).symm
      rw [h1', h2']
      exact ⟨le_rfl, List.prefix_refl _⟩
  · intro fs i j hi hj _
    have : (runTrace fs).get ⟨i, hi⟩ = (runTrace fs).get ⟨j, hj⟩ :=
      runTrace_all_eq (List.get_mem (runTrace fs) i hi)
        (List.get_mem (runTrace fs) j hj)
    rw [this]

/-- Witness for C3 at a concrete growing buffer. -/
theorem C3_extraction_monotone_witness :
    (['a']).length ≤ (['a']).length ∧ ['a'] <+: ['a'] :=
  C3_extraction_monotone.1 (("\"translatedText\":\"a\"").data)
    (("\"translatedText\":\"a\",").data) ['a'] ['a']
    ⟨[','], by decide⟩ (by decide) (by decide)

/-- C7 counterexample: two fragments, the second of which leaves the
already-complete `translatedText` value unchanged, make the loop invoke the
callback twice in a row with the same value — refuting "it is never invoked
twice in a row with the same value". -/
theorem C7_counterexample :
    runTrace [("\x7b\"translatedText\":\"ab\"").data, [',']] = [['a', 'b'], ['a', 'b']] := by
  rfl

/-- C7 (amended): the callback is invoked after a fragment iff the fragment
is nonempty and extraction on the then-accumulated buffer yields a nonempty
capture; the delivered value is the decoded capture, with no comparison
against previously delivered values (equal consecutive deliveries occur).
The trace is exactly extraction filtered over the accumulation points. -/
theorem C7_amended :
    ∀ (fs : List (List Char)) (acc : List Char),
      runTraceGo acc fs = (accumsAfter acc fs).filterMap extractUI := by
  intro fs
  induction fs with
  | nil => intro acc; rfl
  | cons f fs ih =>
    intro acc
    simp only [runTraceGo, accumsAfter]
    by_cases hf : f = []
    · rw [if_pos hf, if_pos hf]
      exact ih acc
    · rw [if_neg hf, if_neg hf, List.filterMap_cons]
      rcases hui : extractUI (acc ++ f) with _ | d <;> simp [hui, ih (acc ++ f)]

/-! ## Claims C5 and C6: the error classifier and finalization failures -/

/-- C5 counterexample: a failed session whose error message carries the
rate-limit marker `429` while the connectivity check reports offline is
classified `QUOTA_EXCEEDED`, not `OFFLINE` — the code checks `429` before
`navigator.onLine`. -/
theorem C5_counterexample :
    translateWithSlangStream (.failure [] (("429").data)) false
        = (Except.error ErrorKind.QUOTA_EXCEEDED, []) ∧
      ErrorKind.QUOTA_EXCEEDED ≠ ErrorKind.OFFLINE := by
  exact ⟨rfl, by decide⟩

/-- C5 (amended): exactly one kind is reported per failed session, but the
transport rate-limit marker is checked *first*: a message containing `429`
classifies as `QUOTA_EXCEEDED` even when offline (in both the streaming and
the legacy catch block); `OFFLINE` is reported only when the message lacks
`429` (and, in the legacy path, the `403`/`API_KEY_INVALID`,
`SAFETY`/`blocked` and `SyntaxError` checks fail as well). -/
theorem C5_amended : ∀ (msg : List Char) (onLine : Bool),
    (hasInfix (("429").data) msg = true →
      classifyStream msg onLine = .QUOTA_EXCEEDED ∧
      ∀ syn : Bool, classifyLegacy msg syn onLine = .QUOTA_EXCEEDED) ∧
    (hasInfix (("429").data) msg = false → onLine = false →
      classifyStream msg onLine = .OFFLINE) ∧
    (hasInfix (("429").data) msg = false → onLine = true →
      classifyStream msg onLine = .UNKNOWN_ERROR) ∧
    (∀ fs, translateWithSlangStream (.failure fs msg) onLine
        = (.error (classifyStream msg onLine), runTrace fs)) := by
  intro msg onLine
  refine ⟨?_, ?_, ?_, fun fs => rfl⟩
  · intro h
    constructor
    · unfold classifyStream
      rw [if_pos h]
    · intro syn
      unfold classifyLegacy
      rw [if_pos h]
  · intro h hoff
    unfold classifyStream
    rw [if_neg (by rw [h]; exact Bool.false_ne_true), hoff]
    rfl
  · intro h hon
    unfold classifyStream
    rw [if_neg (by rw [h]; exact Bool.false_ne_true), hon]
    rfl

/-- Witness for C5 (amended) at a concrete offline rate-limited failure. -/
theorem C5_amended_witness :
    classifyStream (("rate 429 hit").data) false = .QUOTA_EXCEEDED ∧
      ∀ syn : Bool, classifyLegacy (("rate 429 hit").data) syn false = .QUOTA_EXCEEDED :=
  (C5_amended (("rate 429 hit").data) false).1 (by decide)

/-- C6 counterexample: a stream that completes with an empty accumulated
buffer fails with `UNKNOWN_ERROR` (the `JSON.parse` `SyntaxError` falls to
the catch-all; there is no `EMPTY_RESPONSE` branch in the streaming path). -/
theorem C6_counterexample :
    finalizeStream [] true = .error .UNKNOWN_ERROR ∧
      ErrorKind.UNKNOWN_ERROR ≠ ErrorKind.EMPTY_RESPONSE := by
  exact ⟨rfl, by decide⟩

/-- C6 (amended): in the streaming path an empty buffer and a syntactically
invalid buffer alike fall into the generic catch — `UNKNOWN_ERROR` when
online, `OFFLINE` when offline, never `EMPTY_RESPONSE` or `PARSE_ERROR`
(the modelled parse-error message carries no transport marker).  The legacy
non-streaming path maps a syntactically invalid response to `PARSE_ERROR`,
but its own `EMPTY_RESPONSE` throw is re-caught by the same catch block and
surfaces as `UNKNOWN_ERROR`. -/
theorem C6_amended :
    finalizeStream [] true = .error .UNKNOWN_ERROR ∧
    finalizeStream [] false = .error .OFFLINE ∧
    finalizeStream (("\x7b\"translatedText\":").data) true = .error .UNKNOWN_ERROR ∧
    (∀ buf onLine e, finalizeStream buf onLine = .error e →
      e ≠ .EMPTY_RESPONSE ∧ e ≠ .PARSE_ERROR) ∧
    legacyFinalize none true = .error .UNKNOWN_ERROR ∧
    (∀ t, t ≠ [] → parseTop t = none →
      legacyFinalize (some t) true = .error .PARSE_ERROR) := by
  refine ⟨rfl, rfl, rfl, ?_, rfl, ?_⟩
  · intro buf onLine e he
    unfold finalizeStream at he
    rcases hp : parseTop buf with _ | j
    · rw [hp] at he
      have he2 : classifyStream jsonErrMsg onLine = e := Except.error.inj he
      rcases onLine with _ | _
      · have : classifyStream jsonErrMsg false = .OFFLINE := by decide
        rw [this] at he2
        rw [← he2]
        exact ⟨by decide, by decide⟩
      · have : classifyStream jsonErrMsg true = .UNKNOWN_ERROR := by decide
        rw [this] at he2
        rw [← he2]
        exact ⟨by decide, by decide⟩
    · rw [hp] at he
      exact absurd he (by simp)
  · intro t ht hp
    simp only [legacyFinalize, Option.getD_some]
    rw [if_neg ht, hp]
    exact congrArg Except.error (by decide)

/-- Witness for C6 (amended) at a concrete truncated buffer. -/
theorem C6_amended_witness :
    (ErrorKind.OFFLINE ≠ ErrorKind.EMPTY_RESPONSE ∧
      ErrorKind.OFFLINE ≠ ErrorKind.PARSE_ERROR) ∧
    legacyFinalize (some ['\x7b']) true = .error .PARSE_ERROR :=
  ⟨C6_amended.2.2.2.1 [] false .OFFLINE rfl,
    C6_amended.2.2.2.2.2 ['\x7b'] (by decide) rfl⟩

/-! ## Claim C1: finalization does not validate the schema -/

/-- C1 counterexample: a complete JSON object missing the required `vibe`
field finalizes as a *success* carrying the partial object —
`JSON.parse(fullText) as TranslationResult` performs no schema check — so
it does not fail with `PARSE_ERROR`. -/
theorem C1_counterexample :
    finalizeStream
        (("\x7b\"translatedText\":\"a\",\"explanation\":\"b\",\"slangUsed\":[]\x7d").data)
        true
      = Except.ok (Json.jobj
          [(("translatedText").data, Json.jstr ['a']),
            (("explanation").data, Json.jstr ['b']),
            (("slangUsed").data, Json.jarr [])]) ∧
    (Except.ok (Json.jobj
          [(("translatedText").data, Json.jstr ['a']),
            (("explanation").data, Json.jstr ['b']),
            (("slangUsed").data, Json.jarr [])])
        : Except ErrorKind Json) ≠ Except.error ErrorKind.PARSE_ERROR := by
  exact ⟨rfl, fun h => Except.noConfusion h⟩

/-- C1 (amended): finalization of the streaming path checks only JSON
syntax.  A syntactically valid buffer missing required fields (`vibe`
absent, or a `slangUsed` entry lacking `term`/`meaning`/`context`) is
returned as a success with the raw parsed object; only syntactic failures
fail the session, and they are classified by the stream catch block as
`QUOTA_EXCEEDED`, `OFFLINE` or `UNKNOWN_ERROR` — never `PARSE_ERROR`. -/
theorem C1_amended :
    finalizeStream
        (("\x7b\"translatedText\":\"a\",\"explanation\":\"b\",\"slangUsed\":[]\x7d").data)
        true
      = Except.ok (Json.jobj
          [(("translatedText").data, Json.jstr ['a']),
            (("explanation").data, Json.jstr ['b']),
            (("slangUsed").data, Json.jarr [])]) ∧
    finalizeStream (("\x7b\"slangUsed\":[\x7b\"term\":\"x\"\x7d]\x7d").data) true
      = Except.ok (Json.jobj
          [(("slangUsed").data,
            Json.jarr [Json.jobj [(("term").data, Json.jstr ['x'])]])]) ∧
    (∀ buf onLine e, finalizeStream buf onLine = .error e →
      e = .QUOTA_EXCEEDED ∨ e = .OFFLINE ∨ e = .UNKNOWN_ERROR) := by
  refine ⟨rfl, rfl, ?_⟩
  intro buf onLine e he
  unfold finalizeStream at he
  rcases hp : parseTop buf with _ | j
  · rw [hp] at he
    have he2 : classifyStream jsonErrMsg onLine = e := Except.error.inj he
    unfold classifyStream at he2
    split_ifs at he2
    · exact Or.inl he2.symm
    · exact Or.inr (Or.inl he2.symm)
    · exact Or.inr (Or.inr he2.symm)
  · rw [hp] at he
    exact absurd he (by simp)

/-- Witness for C1 (amended): a concrete failing finalization is classified
inside the allowed kinds. -/
theorem C1_amended_witness :
    ErrorKind.UNKNOWN_ERROR = ErrorKind.QUOTA_EXCEEDED ∨
      ErrorKind.UNKNOWN_ERROR = ErrorKind.OFFLINE ∨
      ErrorKind.UNKNOWN_ERROR = ErrorKind.UNKNOWN_ERROR :=
  C1_amended.2.2 [] true .UNKNOWN_ERROR rfl

/-! ## Claim C8: offline fail-fast in the UI entry point -/

/-- C8: if the connectivity check reports no network, `handleTranslate`
never calls the translation service, and — whenever a session would
actually start (nonempty trimmed text, not the duplicate-request early
return) — it fails immediately with the `OFFLINE` error. -/
theorem C8_offline_fail_fast :
    ∀ s : AppState, s.isOnline = false →
      (∀ text src tgt vibe, handleTranslate s ≠ .callService text src tgt vibe) ∧
      (trimChars s.inputText ≠ [] →
        ¬(s.lastTranslated
            = some ⟨trimChars s.inputText, s.sourceLang, s.targetLang, s.vibeMode⟩ ∧
          s.resultPresent = true) →
        handleTranslate s = .failOffline) := by
  intro s hoff
  constructor
  · intro text src tgt vibe
    simp only [handleTranslate]
    split_ifs
    · exact fun h => TranslateStep.noConfusion h
    · exact fun h => TranslateStep.noConfusion h
    · exact fun h => TranslateStep.noConfusion h
  · intro ht hdup
    simp only [handleTranslate]
    rw [if_neg ht, if_neg hdup, if_pos hoff]

/-- Witness for C8 at a concrete offline state. -/
theorem C8_offline_fail_fast_witness :
    handleTranslate ⟨(" hi ").data, ("auto").data, ("tl").data, ("casual").data,
        none, false, false⟩ = .failOffline :=
  (C8_offline_fail_fast _ rfl).2 (by decide) (by simp)

/-! ## Claim C9: the auto source-language directive -/

/-- C9: the built directive requests automatic source-language detection
exactly in the `"auto"` branch — `sourceContext "auto"` is the detection
phrase, any other source language is named literally — and the prompt
embeds `sourceContext` after a fixed prefix. -/
theorem C9_auto_directive :
    (sourceContext (("auto").data)
        = ("the source language is unknown, please DETECT IT automatically").data) ∧
    (∀ lang, lang ≠ ("auto").data →
      sourceContext lang = ("the source language is ").data ++ lang) ∧
    (∀ text sourceLang targetLang vibeMode, ∃ suffix,
      buildPrompt text sourceLang targetLang vibeMode
        = ("\n    Translate the following text from ").data ++
            (sourceContext sourceLang ++ suffix)) := by
  refine ⟨rfl, ?_, ?_⟩
  · intro lang hne
    unfold sourceContext
    rw [if_neg hne]
  · intro text sourceLang targetLang vibeMode
    refine ⟨(" to ").data ++ targetLang ++ promptMid1 ++
      stylisticContext vibeMode targetLang ++ promptMid2 ++ targetLang ++
      promptMid3 ++ text ++ ("\"\n  ").data, ?_⟩
    unfold buildPrompt
    simp [List.append_assoc]

/-- Witness for C9 at a concrete explicit source language. -/
theorem C9_auto_directive_witness :
    sourceContext (("en").data) = ("the source language is ").data ++ ("en").data :=
  C9_auto_directive.2.1 (("en").data) (by decide)

/-! ## Claim C10: the non-streaming wrapper delegates to the stream -/

theorem accumAll_eq_join : ∀ (fs : List (List Char)) (acc : List Char),
    accumAll acc fs = acc ++ fs.flatten := by
  intro fs
  induction fs with
  | nil => intro acc; simp [accumAll]
  | cons f fs ih =>
    intro acc
    by_cases hf : f = []
    · simp [accumAll, hf, ih]
    · simp only [accumAll, if_neg hf, ih (acc ++ f), List.flatten_cons, List.append_assoc]

/-- C10: `translateWithSlang` is extensionally the streaming entry point
with a no-op progress callback — identical result on success and identical
error kind on failure, for every stream behaviour and connectivity state;
on a completed stream both finalize the concatenation of the fragments. -/
theorem C10_wrapper_equivalence :
    (∀ outcome onLine, translateWithSlang outcome onLine
        = (translateWithSlangStream outcome onLine).1) ∧
    (∀ fs onLine, translateWithSlang (.success fs) onLine
        = finalizeStream fs.flatten onLine) ∧
    (∀ fs msg onLine, translateWithSlang (.failure fs msg) onLine
        = .error (classifyStream msg onLine)) := by
  refine ⟨fun _ _ => rfl, ?_, fun _ _ _ => rfl⟩
  intro fs onLine
  show finalizeStream (accumAll [] fs) onLine = finalizeStream fs.flatten onLine
  rw [accumAll_eq_join fs [], List.nil_append]

/-! ## Claim C4: escape handling of the extractor -/

/-- C4 counterexample: the decode step rewrites only `\n` and `\"`; a span
containing the escape sequence `\t` is delivered with the two raw
characters backslash-`t`, not the user-visible tab character. -/
theorem C4_counterexample :
    extractDecoded (("\"translatedText\": \"a\\tb\"").data)
        = some ['a', '\\', 't', 'b'] ∧
      (['a', '\\', 't', 'b'] : List Char) ≠ ['a', '\t', 'b'] := by
  exact ⟨by decide, by decide⟩

theorem hasInfix_cons_false {pat c} {t : List Char}
    (h : hasInfix pat (c :: t) = false) :
    pat.isPrefixOf (c :: t) = false ∧ hasInfix pat t = false := by
  simp only [hasInfix, Bool.or_eq_false_iff] at h
  exact h

theorem replaceEscN_id : ∀ v : List Char, hasInfix ['\\', 'n'] v = false →
    replaceEscN v = v := by
  intro v
  induction v using replaceEscN.induct with
  | case1 => intro _; rfl
  | case2 c => intro _; rfl
  | case3 c d r hcd ih =>
    intro h
    obtain ⟨hpre, _⟩ := hasInfix_cons_false h
    exfalso
    simp only [Bool.and_eq_true, decide_eq_true_eq] at hcd
    rw [hcd.1, hcd.2] at hpre
    simp [List.isPrefixOf] at hpre
  | case4 c d r hcd ih =>
    intro h
    obtain ⟨_, htail⟩ := hasInfix_cons_false h
    show (if (decide (c = '\\') && decide (d = 'n')) = true
        then '\n' :: replaceEscN r else c :: replaceEscN (d :: r)) = c :: d :: r
    rw [if_neg hcd, ih htail]

theorem replaceEscQ_id : ∀ v : List Char, hasInfix ['\\', '"'] v = false →
    replaceEscQ v = v := by
  intro v
  induction v using replaceEscQ.induct with
  | case1 => intro _; rfl
  | case2 c => intro _; rfl
  | case3 c d r hcd ih =>
    intro h
    obtain ⟨hpre, _⟩ := hasInfix_cons_false h
    exfalso
    simp only [Bool.and_eq_true, decide_eq_true_eq] at hcd
    rw [hcd.1, hcd.2] at hpre
    simp [List.isPrefixOf] at hpre
  | case4 c d r hcd ih =>
    intro h
    obtain ⟨_, htail⟩ := hasInfix_cons_false h
    show (if (decide (c = '\\') && decide (d = '\"')) = true
        then '\"' :: replaceEscQ r else c :: replaceEscQ (d :: r)) = c :: d :: r
    rw [if_neg hcd, ih htail]

/-- C4 (amended): a backslash escapes the following character, so an escaped
quote does not terminate the matched span (the spec's concrete example
decodes to `she said "hi"`); but the decode step rewrites *only* the escaped
newline and the escaped quote — any other escape sequence in the span is
handed to the callback verbatim, not decoded to user-visible text. -/
theorem C4_amended :
    (∀ (u : Char) (pre post r : List Char),
      (∀ c ∈ pre, c ≠ '"' ∧ c ≠ '\\') → (∀ c ∈ post, c ≠ '"' ∧ c ≠ '\\') →
      scanStr (pre ++ '\\' :: u :: (post ++ '"' :: r))
        = some (pre ++ '\\' :: u :: post, r)) ∧
    (∀ v, hasInfix ['\\', 'n'] v = false → hasInfix ['\\', '"'] v = false →
      decodeJs v = v) ∧
    extractDecoded (("\"translatedText\": \"she said \\\"hi\\\"\"").data)
      = some (("she said \"hi\"").data) ∧
    extractDecoded (("\"translatedText\": \"a\\tb\"").data)
      = some ['a', '\\', 't', 'b'] := by
  refine ⟨?_, ?_, by decide, by decide⟩
  · intro u pre post r hpre hpost
    induction pre with
    | nil =>
      rw [List.nil_append, List.nil_append, scanStr_bs,
        scanStr_no_specials post hpost r]
      rfl
    | cons c cs ih =>
      have hc := hpre c (List.mem_cons_self c cs)
      rw [List.cons_append, scanStr_other c _ hc.1 hc.2,
        ih (fun d hd => hpre d (List.mem_cons_of_mem c hd))]
      rfl
  · intro v hn hq
    unfold decodeJs
    rw [replaceEscN_id v hn, replaceEscQ_id v hq]

/-- Witness for C4 (amended): a span with an inner escaped quote scans to
its closing quote, and a `\t`-bearing capture decodes to itself. -/
theorem C4_amended_witness :
    scanStr ((("she said ").data) ++ '\\' :: '"' :: ((("hi").data) ++ '"' :: []))
        = some ((("she said ").data) ++ '\\' :: '"' :: (("hi").data), []) ∧
      decodeJs ['a', '\\', 't', 'b'] = ['a', '\\', 't', 'b'] :=
  ⟨C4_amended.1 '"' (("she said ").data) (("hi").data) [] (by decide) (by decide),
    C4_amended.2.1 ['a', '\\', 't', 'b'] (by decide) (by decide)⟩

/-! ## Scanning a `JSON.stringify`-escaped string -/

theorem hexDigitChar_not_special : ∀ n, n < 16 →
    hexDigitChar n ≠ '"' ∧ hexDigitChar n ≠ '\\' := by decide

theorem scanStr_consume_single {c : Char} (h1 : c ≠ '"') (h2 : c ≠ '\\') :
    ∀ w, scanStr ([c] ++ w) = (scanStr w).map (fun p => ([c] ++ p.1, p.2)) :=
  fun w => scanStr_other c w h1 h2

theorem scanStr_consume_pair (d : Char) :
    ∀ w, scanStr (['\\', d] ++ w) = (scanStr w).map (fun p => (['\\', d] ++ p.1, p.2)) :=
  fun w => scanStr_bs d w

theorem scanStr_consume_append {u v : List Char}
    (hu : ∀ w, scanStr (u ++ w) = (scanStr w).map (fun p => (u ++ p.1, p.2)))
    (hv : ∀ w, scanStr (v ++ w) = (scanStr w).map (fun p => (v ++ p.1, p.2))) :
    ∀ w, scanStr ((u ++ v) ++ w) = (scanStr w).map (fun p => ((u ++ v) ++ p.1, p.2)) := by
  intro w
  rw [List.append_assoc, hu, hv]
  cases scanStr w <;> simp

/-- Each escaped character is consumed whole by the scanner: no unit of
`JSON.stringify`'s escaping exposes a bare closing quote. -/
theorem scanStr_escChar (c : Char) :
    ∀ w, scanStr (escChar c ++ w) = (scanStr w).map (fun p => (escChar c ++ p.1, p.2)) := by
  unfold escChar
  split_ifs with h1 h2 h3 h4 h5 h6 h7 h8
  · exact scanStr_consume_pair '"'
  · exact scanStr_consume_pair '\\'
  · exact scanStr_consume_pair 'n'
  · exact scanStr_consume_pair 'r'
  · exact scanStr_consume_pair 't'
  · exact scanStr_consume_pair 'b'
  · exact scanStr_consume_pair 'f'
  · have hd1 := hexDigitChar_not_special (c.toNat / 16) (Nat.div_lt_of_lt_mul (by omega))
    have hd2 := hexDigitChar_not_special (c.toNat % 16) (Nat.mod_lt _ (by norm_num))
    exact scanStr_consume_append (scanStr_consume_pair 'u')
      (scanStr_consume_append (scanStr_consume_single (by decide) (by decide))
        (scanStr_consume_append (scanStr_consume_single (by decide) (by decide))
          (scanStr_consume_append (scanStr_consume_single hd1.1 hd1.2)
            (scanStr_consume_single hd2.1 hd2.2))))
  · exact scanStr_consume_single h1 h2

theorem scanStr_escStr_consume : ∀ (t w : List Char),
    scanStr (escStr t ++ w) = (scanStr w).map (fun p => (escStr t ++ p.1, p.2)) := by
  intro t
  induction t with
  | nil =>
    intro w
    rw [show escStr [] = [] from rfl, List.nil_append]
    cases scanStr w <;> simp
  | cons c t ih =>
    intro w
    show scanStr ((escChar c ++ escStr t) ++ w) = _
    rw [List.append_assoc, scanStr_escChar, ih]
    cases scanStr w <;> simp [escStr, List.append_assoc]

/-- The scanner recovers exactly the escaped span and stops at the first
quote after it. -/
theorem scanStr_escStr_quote (t r : List Char) :
    scanStr (escStr t ++ '"' :: r) = some (escStr t, r) := by
  rw [scanStr_escStr_consume, scanStr_quote]
  simp

theorem scanStr_escStr_none (t : List Char) : scanStr (escStr t) = none := by
  have h := scanStr_escStr_consume t []
  rw [List.append_nil, scanStr_nil] at h
  rw [h]
  rfl

/-- A scan that fails on a buffer also fails on every prefix of it. -/
theorem scanStr_prefix_none : ∀ (l : List Char), scanStr l = none →
    ∀ w, w <+: l → scanStr w = none := by
  intro l
  induction l using scanStr.induct with
  | case1 =>
    intro _ w hw
    rw [List.prefix_nil.mp hw]
    exact scanStr_nil
  | case2 r' =>
    intro h
    rw [scanStr_quote] at h
    exact absurd h (by simp)
  | case3 _ =>
    intro _ w hw
    cases w with
    | nil => exact scanStr_nil
    | cons e w2 =>
      obtain ⟨rfl, hw2⟩ := List.cons_prefix_cons.mp hw
      rw [List.prefix_nil.mp hw2]
      exact scanStr_bs_nil
  | case4 d r' hq ih =>
    intro h w hw
    rw [scanStr_bs] at h
    have hr : scanStr r' = none := Option.map_eq_none'.mp h
    cases w with
    | nil => exact scanStr_nil
    | cons e w2 =>
      obtain ⟨rfl, hw2⟩ := List.cons_prefix_cons.mp hw
      cases w2 with
      | nil => exact scanStr_bs_nil
      | cons e2 w3 =>
        obtain ⟨rfl, hw3⟩ := List.cons_prefix_cons.mp hw2
        rw [scanStr_bs, ih hr w3 hw3]
        rfl
  | case5 c r' hq hb ih =>
    intro h w hw
    rw [scanStr_other c r' hq hb] at h
    have hr : scanStr r' = none := Option.map_eq_none'.mp h
    cases w with
    | nil => exact scanStr_nil
    | cons e w2 =>
      obtain ⟨rfl, hw2⟩ := List.cons_prefix_cons.mp hw
      rw [scanStr_other e w2 hq hb, ih hr w2 hw2]
      rfl

theorem scanStr_escStr_prefix {t w : List Char} (hw : w <+: escStr t) :
    scanStr w = none :=
  scanStr_prefix_none (escStr t) (scanStr_escStr_none t) w hw

/-! ## Structure of escaped text: every quote character is escaped -/

theorem escChar_quote_mem : ∀ c : Char, '"' ∈ escChar c → escChar c = ['\\', '"'] := by
  intro c
  unfold escChar
  split_ifs with h1 h2 h3 h4 h5 h6 h7 h8
  · intro _; rfl
  · intro h; exact absurd h (by decide)
  · intro h; exact absurd h (by decide)
  · intro h; exact absurd h (by decide)
  · intro h; exact absurd h (by decide)
  · intro h; exact absurd h (by decide)
  · intro h; exact absurd h (by decide)
  · intro h
    exfalso
    simp only [List.mem_cons, List.not_mem_nil, or_false] at h
    rcases h with h | h | h | h | h | h
    · exact absurd h (by decide)
    · exact absurd h (by decide)
    · exact absurd h (by decide)
    · exact absurd h (by decide)
    · exact (hexDigitChar_not_special (c.toNat / 16)
        (Nat.div_lt_of_lt_mul (by omega))).1 h.symm
    · exact (hexDigitChar_not_special (c.toNat % 16) (Nat.mod_lt _ (by norm_num))).1 h.symm
  · intro h
    exfalso
    simp only [List.mem_singleton] at h
    exact h1 h.symm

/-- Any occurrence of a quote character inside `JSON.stringify`-escaped text
is immediately preceded by a backslash. -/
theorem escStr_quote_prec : ∀ (t x y : List Char), escStr t = x ++ '"' :: y →
    ∃ x2, x = x2 ++ ['\\'] := by
  intro t
  induction t with
  | nil =>
    intro x y h
    rw [show escStr [] = [] from rfl] at h
    exact absurd h.symm (by simp)
  | cons c t ih =>
    intro x y h
    rw [show escStr (c :: t) = escChar c ++ escStr t from rfl] at h
    rcases List.append_eq_append_iff.mp h with ⟨a2, hx, h2⟩ | ⟨c2, hx, h2⟩
    · obtain ⟨x2, hx2⟩ := ih a2 y h2
      exact ⟨escChar c ++ x2, by rw [hx, hx2, List.append_assoc]⟩
    · cases c2 with
      | nil =>
        rw [List.nil_append] at h2
        obtain ⟨x2, hx2⟩ := ih [] y (by rw [List.nil_append]; exact h2.symm)
        exact absurd hx2.symm (by simp)
      | cons e c3 =>
        rw [List.cons_append] at h2
        have he : '"' = e := (List.cons.injEq .. ▸ h2).1
        have hq : '"' ∈ escChar c := by
          rw [hx, he]
          exact List.mem_append_right _ (List.mem_cons_self _ _)
        have hesc : escChar c = ['\\', '"'] := escChar_quote_mem c hq
        rw [hesc, ← he] at hx
        -- x ++ '"' :: c3 = ['\\', '"']
        cases x with
        | nil =>
          rw [List.nil_append] at hx
          exact absurd (List.cons.injEq .. ▸ hx).1 (by decide)
        | cons e1 x1 =>
          rw [List.cons_append] at hx
          have hh1 : e1 = '\\' := ((List.cons.injEq .. ▸ hx).1).symm
          have hh2 : x1 ++ '"' :: c3 = ['"'] := ((List.cons.injEq .. ▸ hx).2).symm
          cases x1 with
          | nil => exact ⟨[], by simp [hh1]⟩
          | cons e2 x2 =>
            rw [List.cons_append] at hh2
            have h3 : x2 ++ '"' :: c3 = [] := (List.cons.injEq .. ▸ hh2).2
            exact absurd h3 (by simp)

/-- The field-name literal `"translatedText":` never occurs inside escaped
text: its middle quote would have to be escaped, but it is preceded by the
letter `t`. -/
theorem lit_not_infix_escStr : ∀ (t u v : List Char),
    escStr t ≠ u ++ (litChars ++ v) := by
  intro t u v h
  have hshape : escStr t = (u ++ '"' :: midLetters) ++ '"' :: (':' :: v) := by
    rw [h]
    simp [litChars]
  obtain ⟨x2, hx2⟩ := escStr_quote_prec t _ _ hshape
  have hlast : (u ++ '"' :: midLetters).getLast? = some 't' := by
    rw [List.getLast?_append]
    rw [show ('"' :: midLetters).getLast? = some 't' from by decide]
    rfl
  have hlast2 : (x2 ++ ['\\']).getLast? = some '\\' := by
    rw [List.getLast?_append]
    rfl
  rw [hx2, hlast2] at hlast
  exact absurd hlast (by decide)

/-! ## Decoding of escaped safe text -/

theorem replaceEscN_cons_ne {c : Char} (h : c ≠ '\\') :
    ∀ X, replaceEscN (c :: X) = c :: replaceEscN X := by
  intro X
  cases X with
  | nil => rfl
  | cons d r =>
    show (if (decide (c = '\\') && decide (d = 'n')) = true
        then '\n' :: replaceEscN r else c :: replaceEscN (d :: r)) = _
    rw [if_neg (by simp [h])]

theorem replaceEscN_bs_ne {d : Char} (h : d ≠ 'n') :
    ∀ X, replaceEscN ('\\' :: d :: X) = '\\' :: replaceEscN (d :: X) := by
  intro X
  show (if (decide (('\\' : Char) = '\\') && decide (d = 'n')) = true
      then '\n' :: replaceEscN X else '\\' :: replaceEscN (d :: X)) = _
  rw [if_neg (by simp [h])]

theorem replaceEscN_pair : ∀ X, replaceEscN ('\\' :: 'n' :: X) = '\n' :: replaceEscN X :=
  fun _ => rfl

theorem replaceEscQ_cons_ne {c : Char} (h : c ≠ '\\') :
    ∀ X, replaceEscQ (c :: X) = c :: replaceEscQ X := by
  intro X
  cases X with
  | nil => rfl
  | cons d r =>
    show (if (decide (c = '\\') && decide (d = '"')) = true
        then '"' :: replaceEscQ r else c :: replaceEscQ (d :: r)) = _
    rw [if_neg (by simp [h])]

theorem replaceEscQ_pair : ∀ X, replaceEscQ ('\\' :: '"' :: X) = '"' :: replaceEscQ X :=
  fun _ => rfl

theorem escChar_plain {c : Char} (h1 : c ≠ '"') (h2 : safeTextChar c = true)
    (h3 : c ≠ '\n') : escChar c = [c] := by
  simp only [safeTextChar, Bool.and_eq_true, Bool.or_eq_true, decide_eq_true_eq] at h2
  have h32 : 32 ≤ c.toNat := by
    rcases h2.2 with hh | hh
    · exact absurd hh h3
    · exact hh
  unfold escChar
  rw [if_neg h1, if_neg h2.1, if_neg h3,
    if_neg (fun hc => by rw [hc] at h32; exact absurd h32 (by decide)),
    if_neg (fun hc => by rw [hc] at h32; exact absurd h32 (by decide)),
    if_neg (fun hc => by rw [hc] at h32; exact absurd h32 (by decide)),
    if_neg (fun hc => by rw [hc] at h32; exact absurd h32 (by decide)),
    if_neg (by omega)]

theorem replaceEscN_escStr_safe : ∀ t : List Char,
    (∀ c ∈ t, safeTextChar c = true) → replaceEscN (escStr t) = escQOnly t := by
  intro t
  induction t with
  | nil => intro _; rfl
  | cons c t ih =>
    intro hs
    have hc := hs c (List.mem_cons_self c t)
    have ht := fun d hd => hs d (List.mem_cons_of_mem c hd)
    show replaceEscN (escChar c ++ escStr t) = _
    by_cases hq : c = '"'
    · subst hq
      rw [show escChar '"' = ['\\', '"'] from rfl, List.cons_append, List.cons_append,
        List.nil_append, replaceEscN_bs_ne (by decide), replaceEscN_cons_ne (by decide),
        ih ht]
      rfl
    · by_cases hn : c = '\n'
      · subst hn
        rw [show escChar '\n' = ['\\', 'n'] from rfl, List.cons_append, List.cons_append,
          List.nil_append, replaceEscN_pair, ih ht]
        simp [escQOnly]
      · have hb : c ≠ '\\' := by
          simp only [safeTextChar, Bool.and_eq_true, decide_eq_true_eq] at hc
          exact fun hh => by rw [hh] at hc; exact absurd hc.1 (by decide)
        rw [escChar_plain hq hc hn, List.cons_append, List.nil_append,
          replaceEscN_cons_ne hb, ih ht]
        simp [escQOnly, hq]

theorem replaceEscQ_escQOnly_safe : ∀ t : List Char,
    (∀ c ∈ t, safeTextChar c = true) → replaceEscQ (escQOnly t) = t := by
  intro t
  induction t with
  | nil => intro _; rfl
  | cons c t ih =>
    intro hs
    have hc := hs c (List.mem_cons_self c t)
    have ht := fun d hd => hs d (List.mem_cons_of_mem c hd)
    show replaceEscQ ((if c = '"' then ['\\', '"'] else [c]) ++ escQOnly t) = _
    by_cases hq : c = '"'
    · subst hq
      rw [if_pos rfl, List.cons_append, List.cons_append, List.nil_append,
        replaceEscQ_pair, ih ht]
    · have hb : c ≠ '\\' := by
        simp only [safeTextChar, Bool.and_eq_true, decide_eq_true_eq] at hc
        exact fun hh => by rw [hh] at hc; exact absurd hc.1 (by decide)
      rw [if_neg hq, List.cons_append, List.nil_append, replaceEscQ_cons_ne hb, ih ht]

/-- For safe text (no backslash, no control characters besides the newline)
the source's two-replace decode inverts `JSON.stringify`'s escaping. -/
theorem decodeJs_escStr_safe {t : List Char}
    (hs : ∀ c ∈ t, safeTextChar c = true) : decodeJs (escStr t) = t := by
  unfold decodeJs
  rw [replaceEscN_escStr_safe t hs, replaceEscQ_escQOnly_safe t hs]

/-! ## The extractor on a serialized result object -/

theorem matchAt_head_ne {c : Char} {X : List Char} (h : c ≠ '"') :
    matchAt (c :: X) = none := by
  apply matchAt_of_not_lit
  intro hcon
  have hpf := List.isPrefixOf_iff_prefix.mp hcon
  rw [show litChars = '"' :: (midLetters ++ ['"', ':']) from rfl] at hpf
  exact h (List.cons_prefix_cons.mp hpf).1.symm

theorem matchAt_none_of_scan_none {l r : List Char}
    (hp : litChars.isPrefixOf l = true) (hd : dropWs (l.drop 17) = '"' :: r)
    (hs : scanStr r = none) : matchAt l = none := by
  unfold matchAt
  rw [if_pos hp, hd]
  show (if ('"' : Char) = '"' then (scanStr r).map Prod.fst else none) = none
  rw [if_pos rfl, hs]
  rfl

theorem extractRaw_of_matchAt {l v : List Char} (h : matchAt l = some v) :
    extractRaw l = some v := by
  cases l with
  | nil => rw [matchAt_of_not_lit (by decide)] at h; exact absurd h (by simp)
  | cons c r => rw [extractRaw_cons, h]

theorem extractRaw_eq_of_second {c : Char} {X : List Char}
    (h1 : matchAt (c :: X) = none) : extractRaw (c :: X) = extractRaw X := by
  rw [extractRaw_cons, h1]

theorem drop17_lit (Y : List Char) : (litChars ++ Y).drop 17 = Y := by
  rw [← litChars_length]
  exact List.drop_left _ _

/-- The match attempt at the field name of a serialized object captures
exactly the escaped `translatedText` span. -/
theorem matchAt_serialized (t rest : List Char) :
    matchAt (litChars ++ ('"' :: (escStr t ++ '"' :: rest))) = some (escStr t) := by
  apply matchAt_intro (List.isPrefixOf_iff_prefix.mpr (List.prefix_append _ _))
  · rw [drop17_lit]
    exact dropWs_cons_not_ws (by decide) _
  · exact scanStr_escStr_quote t rest

theorem extractRaw_serialized (t rest : List Char) :
    extractRaw ('\x7b' :: (litChars ++ ('"' :: (escStr t ++ '"' :: rest))))
      = some (escStr t) := by
  rw [extractRaw_eq_of_second (matchAt_head_ne (by decide))]
  exact extractRaw_of_matchAt (matchAt_serialized t rest)

/-! ## The extractor on every strict prefix of a serialized object -/

theorem extractRaw_eq_none_iff : ∀ l : List Char,
    extractRaw l = none ↔ ∀ a m : List Char, l = a ++ m → matchAt m = none := by
  intro l
  induction l with
  | nil =>
    constructor
    · intro _ a m hm
      obtain ⟨-, rfl⟩ := List.append_eq_nil.mp hm.symm
      exact matchAt_of_not_lit (by decide)
    · intro _; exact extractRaw_nil
  | cons c r ih =>
    constructor
    · intro h a m hm
      rw [extractRaw_cons] at h
      rcases hma : matchAt (c :: r) with _ | v
      · rw [hma] at h
        cases a with
        | nil => rw [List.nil_append] at hm; rw [← hm]; exact hma
        | cons a0 a1 =>
          rw [List.cons_append] at hm
          injection hm with h1 h2
          exact (ih.mp h) a1 m h2
      · rw [hma] at h; exact absurd h (by simp)
    · intro hall
      rw [extractRaw_cons, hall [] (c :: r) (by rw [List.nil_append])]
      exact ih.mpr (fun a m hm => hall (c :: a) m (by rw [hm, List.cons_append]))

theorem prefix_append_cases {α : Type} {l x y : List α} (h : l <+: x ++ y) :
    l <+: x ∨ ∃ z, z <+: y ∧ l = x ++ z := by
  obtain ⟨s, hs⟩ := h
  rcases List.append_eq_append_iff.mp hs with ⟨a2, h1, h2⟩ | ⟨c2, h1, h2⟩
  · exact Or.inl ⟨a2, h1.symm⟩
  · exact Or.inr ⟨c2, ⟨s, h2.symm⟩, h1⟩

theorem lit_prefix_extract_none : ∀ k, k < 18 →
    extractRaw (litChars.take k) = none := by decide

/-- A match attempt starting at the opening quote of the value, on a buffer
whose remainder is a prefix of the escaped text, fails: the field-name
literal cannot occur there. -/
theorem matchAt_quote_w_none {t w : List Char} (hw : w <+: escStr t) :
    matchAt ('"' :: w) = none := by
  by_cases hp : litChars.isPrefixOf ('"' :: w)
  · exfalso
    obtain ⟨z, hz⟩ := List.isPrefixOf_iff_prefix.mp hp
    rw [show litChars = '"' :: (midLetters ++ ['"', ':']) from rfl,
      List.cons_append] at hz
    have hw2 : w = midLetters ++ ('"' :: (':' :: z)) := by
      have := (List.cons.injEq .. ▸ hz).2
      rw [← this]
      simp
    obtain ⟨q, hq⟩ := hw
    rw [hw2] at hq
    have hshape : escStr t = midLetters ++ '"' :: (':' :: (z ++ q)) := by
      rw [← hq]
      simp
    obtain ⟨x2, hx2⟩ := escStr_quote_prec t _ _ hshape
    have : '\\' ∈ midLetters := by
      rw [hx2]
      exact List.mem_append_right _ (List.mem_cons_self _ _)
    exact absurd this (by decide)
  · exact matchAt_of_not_lit hp

/-- A match attempt strictly inside the escaped text fails. -/
theorem matchAt_inside_w_none {t w a2 m : List Char} (hw : w <+: escStr t)
    (hsplit : w = a2 ++ m) : matchAt m = none := by
  by_cases hp : litChars.isPrefixOf m
  · exfalso
    obtain ⟨z, hz⟩ := List.isPrefixOf_iff_prefix.mp hp
    obtain ⟨q, hq⟩ := hw
    apply lit_not_infix_escStr t a2 (z ++ q)
    rw [← hq, hsplit, ← hz]
    simp
  · exact matchAt_of_not_lit hp

/-- A match attempt at a nonempty proper shift into the field-name literal
fails (the literal cannot overlap itself). -/
theorem matchAt_lit_shift_none {a c2 X : List Char} (hlit : litChars = a ++ c2)
    (ha : a ≠ []) (hc : c2 ≠ []) : matchAt (c2 ++ X) = none := by
  apply matchAt_of_not_lit
  intro hp
  obtain ⟨s, hs⟩ := List.isPrefixOf_iff_prefix.mp hp
  have hk1 : 0 < a.length := List.length_pos.mpr ha
  have hk17 : a.length + c2.length = 17 := by
    have := congrArg List.length hlit
    simpa [litChars_length] using this.symm
  have hk2 : a.length < 17 := by
    have := List.length_pos.mpr hc
    omega
  have hc2 : c2 = litChars.drop a.length := by
    rw [hlit]
    exact (List.drop_left a c2).symm
  have hlen : c2.length = 17 - a.length := by omega
  have htake : litChars.drop a.length = litChars.take (17 - a.length) := by
    have h1 : (c2 ++ X).take (17 - a.length) = c2 := by
      rw [List.take_append_eq_append_take, ← hlen, List.take_length, Nat.sub_self,
        List.take_zero, List.append_nil]
    have h2 : (litChars ++ s).take (17 - a.length) = litChars.take (17 - a.length) :=
      List.take_append_of_le_length (by rw [litChars_length]; omega)
    rw [← hc2, ← h1, ← hs, h2]
  exact lit_no_overlap a.length hk2 hk1 htake

/-- No prefix of a serialized object cut before the closing quote of the
`translatedText` value yields an extraction. -/
theorem extract_lit_quote_prefix_none (t w : List Char) (hw : w <+: escStr t) :
    extractRaw (litChars ++ ('"' :: w)) = none := by
  rw [extractRaw_eq_none_iff]
  intro a m hm
  rcases List.append_eq_append_iff.mp hm.symm with ⟨a2, ha1, ha2⟩ | ⟨c2, hc1, hc2⟩
  · -- litChars = a ++ a2 and m = a2 ++ '"' :: w
    cases a2 with
    | nil =>
      rw [List.nil_append] at ha2
      rw [ha2]
      exact matchAt_quote_w_none hw
    | cons c0 c1 =>
      cases a with
      | nil =>
        rw [List.nil_append] at ha1
        rw [ha2, ← ha1]
        apply matchAt_none_of_scan_none
          (List.isPrefixOf_iff_prefix.mpr (List.prefix_append _ _))
        · rw [drop17_lit]
          exact dropWs_cons_not_ws (by decide) _
        · exact scanStr_escStr_prefix hw
      | cons a0 a1 =>
        rw [ha2]
        exact matchAt_lit_shift_none ha1 (by simp) (by simp)
  · -- a = litChars ++ c2 and '"' :: w = c2 ++ m
    cases c2 with
    | nil =>
      rw [List.nil_append] at hc2
      rw [← hc2]
      exact matchAt_quote_w_none hw
    | cons e c3 =>
      rw [List.cons_append] at hc2
      have hw2 : w = c3 ++ m := (List.cons.injEq .. ▸ hc2).2
      exact matchAt_inside_w_none hw hw2

/-- No prefix of a serialized object that stops anywhere before the closing
quote of the `translatedText` value yields an extraction. -/
theorem extract_serialized_prefix_none (t : List Char) :
    ∀ P, P <+: '\x7b' :: (litChars ++ ('"' :: escStr t)) → extractRaw P = none := by
  intro P hP
  cases P with
  | nil => exact extractRaw_nil
  | cons c Q =>
    obtain ⟨rfl, hQ⟩ := List.cons_prefix_cons.mp hP
    rw [extractRaw_eq_of_second (matchAt_head_ne (by decide))]
    rcases prefix_append_cases hQ with hQlit | ⟨z, hz, rfl⟩
    · have hQeq : Q = litChars.take Q.length := List.prefix_iff_eq_take.mp hQlit
      have hlen : Q.length < 18 := by
        have := hQlit.length_le
        rw [litChars_length] at this
        omega
      rw [hQeq]
      exact lit_prefix_extract_none Q.length hlen
    · cases z with
      | nil =>
        rw [List.append_nil]
        have : litChars = litChars.take 17 := by decide
        rw [this]
        exact lit_prefix_extract_none 17 (by omega)
      | cons z0 z1 =>
        obtain ⟨rfl, hz1⟩ := List.cons_prefix_cons.mp hz
        exact extract_lit_quote_prefix_none t z1 hz1

/-! ## Shape of a serialized result -/

theorem stringifyJson_obj (fs : List (List Char × Json)) :
    stringifyJson (.jobj fs) = '\x7b' :: (stringifyFields fs ++ ['\x7d']) := by
  simp [stringifyJson]

theorem stringifyFields_cons2 (k : List Char) (v : Json) (f2 : List Char × Json)
    (fs : List (List Char × Json)) :
    stringifyFields ((k, v) :: f2 :: fs)
      = '"' :: (escStr k ++ ['"']) ++ ':' :: stringifyJson v ++
          ',' :: stringifyFields (f2 :: fs) := by
  simp [stringifyFields]

theorem stringifyJson_str (s : List Char) :
    stringifyJson (.jstr s) = '"' :: (escStr s ++ ['"']) := by
  simp [stringifyJson]

theorem escStr_key : escStr (("translatedText").data) = midLetters := by decide

/-- Every serialized result object opens with the brace, the
`"translatedText":` literal, and the quoted escaped translated text. -/
theorem serializeResult_shape (o : TranslationResult) : ∃ rest,
    serializeResult o
      = '\x7b' :: (litChars ++ ('"' :: (escStr o.translatedText ++ ('"' :: rest)))) := by
  unfold serializeResult TranslationResult.toJson
  rcases o.transliteration with _ | tr
  · refine ⟨',' :: (stringifyFields
      ([(("explanation").data, Json.jstr o.explanation),
        (("slangUsed").data, Json.jarr (o.slangUsed.map SlangEntry.toJson)),
        (("vibe").data, Json.jstr o.vibe)] ++
        (match o.detectedLanguage with
          | some t => [(("detectedLanguage").data, Json.jstr t)]
          | none => [])) ++ ['\x7d']), ?_⟩
    simp only [List.nil_append, List.singleton_append, List.cons_append,
      stringifyJson_obj]
    rw [show ((("translatedText").data, Json.jstr o.translatedText) ::
        ((("explanation").data, Json.jstr o.explanation) ::
          ((("slangUsed").data, Json.jarr (o.slangUsed.map SlangEntry.toJson)) ::
            ((("vibe").data, Json.jstr o.vibe) ::
              (match o.detectedLanguage with
                | some t => [(("detectedLanguage").data, Json.jstr t)]
                | none => [])))))
      = ((("translatedText").data, Json.jstr o.translatedText) ::
          ((("explanation").data, Json.jstr o.explanation) ::
            ([(("slangUsed").data, Json.jarr (o.slangUsed.map SlangEntry.toJson)),
              (("vibe").data, Json.jstr o.vibe)] ++
              (match o.detectedLanguage with
                | some t => [(("detectedLanguage").data, Json.jstr t)]
                | none => [])))) from by simp,
      stringifyFields_cons2, stringifyJson_str, escStr_key]
    simp [litChars, List.append_assoc]
  · refine ⟨',' :: (stringifyFields
      ([(("transliteration").data, Json.jstr tr),
        (("explanation").data, Json.jstr o.explanation),
        (("slangUsed").data, Json.jarr (o.slangUsed.map SlangEntry.toJson)),
        (("vibe").data, Json.jstr o.vibe)] ++
        (match o.detectedLanguage with
          | some t => [(("detectedLanguage").data, Json.jstr t)]
          | none => [])) ++ ['\x7d']), ?_⟩
    simp only [List.nil_append, List.singleton_append, List.cons_append,
      stringifyJson_obj]
    rw [show ((("translatedText").data, Json.jstr o.translatedText) ::
        ((("transliteration").data, Json.jstr tr) ::
          ((("explanation").data, Json.jstr o.explanation) ::
            ((("slangUsed").data, Json.jarr (o.slangUsed.map SlangEntry.toJson)) ::
              ((("vibe").data, Json.jstr o.vibe) ::
                (match o.detectedLanguage with
                  | some t => [(("detectedLanguage").data, Json.jstr t)]
                  | none => []))))))
      = ((("translatedText").data, Json.jstr o.translatedText) ::
          ((("transliteration").data, Json.jstr tr) ::
            ([(("explanation").data, Json.jstr o.explanation),
              (("slangUsed").data, Json.jarr (o.slangUsed.map SlangEntry.toJson)),
              (("vibe").data, Json.jstr o.vibe)] ++
              (match o.detectedLanguage with
                | some t => [(("detectedLanguage").data, Json.jstr t)]
                | none => [])))) from by simp,
      stringifyFields_cons2, stringifyJson_str, escStr_key]
    simp [litChars, List.append_assoc]

/-! ## The parser undoes the serializer -/

/-- The two hexadecimal digit characters emitted for a control character
decode back to the value they encode. -/
theorem hexVal_hexDigitChar : ∀ m : Nat, m < 16 → hexVal (hexDigitChar m) = some m := by decide

/-- `parseStringBody` undoes the escaping of one character. -/
theorem parseStringBody_escChar (c : Char) (X : List Char) :
    parseStringBody (escChar c ++ X)
      = (parseStringBody X).map (fun p => (c :: p.1, p.2)) := by
  by_cases h1 : c = '"'
  · subst h1; rfl
  by_cases h2 : c = '\\'
  · subst h2; rfl
  by_cases h3 : c = '\n'
  · subst h3; rfl
  by_cases h4 : c = '\r'
  · subst h4; rfl
  by_cases h5 : c = '\t'
  · subst h5; rfl
  by_cases h6 : c = '\x08'
  · subst h6; rfl
  by_cases h7 : c = '\x0c'
  · subst h7; rfl
  by_cases h8 : c.toNat < 32
  · have he : escChar c
        = ['\\', 'u', '0', '0', hexDigitChar (c.toNat / 16), hexDigitChar (c.toNat % 16)] := by
      simp [escChar, h1, h2, h3, h4, h5, h6, h7, h8]
    rw [he]
    show (match hexVal '0', hexVal '0', hexVal (hexDigitChar (c.toNat / 16)),
            hexVal (hexDigitChar (c.toNat % 16)) with
          | some a, some b, some c2, some d =>
            (parseStringBody X).map
              (fun p => (Char.ofNat (((a * 16 + b) * 16 + c2) * 16 + d) :: p.1, p.2))
          | _, _, _, _ => none)
        = (parseStringBody X).map (fun p => (c :: p.1, p.2))
    rw [hexVal_hexDigitChar _ (by omega), hexVal_hexDigitChar _ (by omega),
      show hexVal ('0') = some 0 from rfl]
    show (parseStringBody X).map
        (fun p => (Char.ofNat (((0 * 16 + 0) * 16 + c.toNat / 16) * 16 + c.toNat % 16) :: p.1, p.2))
      = (parseStringBody X).map (fun p => (c :: p.1, p.2))
    have harith : ((0 * 16 + 0) * 16 + c.toNat / 16) * 16 + c.toNat % 16 = c.toNat := by omega
    rw [harith, Char.ofNat_toNat]
  · have he : escChar c = [c] := by simp [escChar, h1, h2, h3, h4, h5, h6, h7, h8]
    rw [he, List.singleton_append, parseStringBody.eq_def]
    simp only [if_neg h1, if_neg h2, if_neg h8]

/-- `parseStringBody` undoes the escaping of a whole string, stopping at the
closing quote. -/
theorem parseStringBody_escStr : ∀ (s r : List Char),
    parseStringBody (escStr s ++ '"' :: r) = some (s, r) := by
  intro s
  induction s with
  | nil =>
    intro r
    show parseStringBody ('"' :: r) = some ([], r)
    rw [parseStringBody.eq_def]
    rfl
  | cons c t ih =>
    intro r
    show parseStringBody ((escChar c ++ escStr t) ++ '"' :: r) = _
    rw [List.append_assoc, parseStringBody_escChar, ih]
    rfl

theorem noNumList_cons (j : Json) (es : List Json) :
    noNumList (j :: es) = (noNum j && noNumList es) := by simp [noNumList]

theorem noNumFields_cons (k : List Char) (v : Json) (fs : List (List Char × Json)) :
    noNumFields ((k, v) :: fs) = (noNum v && noNumFields fs) := by simp [noNumFields]

/-- Every number-free JSON value serializes to a list opening with a
non-whitespace character that is none of the structural closers. -/
theorem stringifyJson_head (j : Json) (hno : noNum j = true) :
    ∃ c t, stringifyJson j = c :: t ∧ isWsChar c = false ∧ c ≠ ']' ∧ c ≠ '\x7d' ∧ c ≠ ',' := by
  cases j with
  | jnull =>
    exact ⟨'n', ['u', 'l', 'l'], by simp [stringifyJson], by decide, by decide, by decide,
      by decide⟩
  | jbool b =>
    cases b with
    | true =>
      exact ⟨'t', ['r', 'u', 'e'], by simp [stringifyJson], by decide, by decide, by decide,
        by decide⟩
    | false =>
      exact ⟨'f', ['a', 'l', 's', 'e'], by simp [stringifyJson], by decide, by decide,
        by decide, by decide⟩
  | jnum lx => simp [noNum] at hno
  | jstr s =>
    exact ⟨'"', escStr s ++ ['"'], by simp [stringifyJson], by decide, by decide, by decide,
      by decide⟩
  | jarr es =>
    exact ⟨'[', stringifyElems es ++ [']'], by simp [stringifyJson], by decide, by decide,
      by decide, by decide⟩
  | jobj fs =>
    exact ⟨'\x7b', stringifyFields fs ++ ['\x7d'], by simp [stringifyJson], by decide,
      by decide, by decide, by decide⟩

theorem stringifyFields_head (k : List Char) (v : Json) (fs : List (List Char × Json)) :
    ∃ t, stringifyFields ((k, v) :: fs) = '"' :: t := by
  cases fs with
  | nil =>
    exact ⟨(escStr k ++ ['"']) ++ ':' :: stringifyJson v, by simp [stringifyFields]⟩
  | cons f2 fs2 =>
    exact ⟨(escStr k ++ ['"']) ++ ':' :: stringifyJson v ++ ',' :: stringifyFields (f2 :: fs2),
      by simp [stringifyFields]⟩

theorem stringifyJson_length_pos (j : Json) (hno : noNum j = true) :
    1 ≤ (stringifyJson j).length := by
  obtain ⟨c, t, he, -, -, -, -⟩ := stringifyJson_head j hno
  rw [he]; simp

theorem stringifyFields_length_pos (fs : List (List Char × Json)) (hne : fs ≠ []) :
    1 ≤ (stringifyFields fs).length := by
  match fs with
  | [] => exact absurd rfl hne
  | (k, v) :: fs' =>
    obtain ⟨t, ht⟩ := stringifyFields_head k v fs'
    rw [ht]; simp

theorem stringifyElems_cons_ex (e : Json) (es : List Json) :
    ∃ u, stringifyElems (e :: es) = stringifyJson e ++ u := by
  cases es with
  | nil => exact ⟨[], by simp [stringifyElems]⟩
  | cons e2 es2 => exact ⟨',' :: stringifyElems (e2 :: es2), by simp [stringifyElems]⟩

/-- Unfolding `parseValue` at an opening brace when the next character does
not close the object immediately. -/
theorem parseValue_brace_go (fu : Nat) (X : List Char) (c : Char) (Y : List Char)
    (hd : dropWs X = c :: Y) (hc : c ≠ '\x7d') :
    parseValue (fu + 1) ('\x7b' :: X)
      = (parseFields fu X).map (fun p => (Json.jobj p.1, p.2)) := by
  show (match dropWs X with
        | '\x7d' :: r1 => some (Json.jobj [], r1)
        | _ => (parseFields fu X).map (fun p => (Json.jobj p.1, p.2)))
      = (parseFields fu X).map (fun p => (Json.jobj p.1, p.2))
  rw [hd]
  split
  · rename_i heq
    rw [List.cons.injEq] at heq
    exact absurd heq.1 hc
  · rfl

/-- Unfolding `parseValue` at an opening bracket when the next character does
not close the array immediately. -/
theorem parseValue_bracket_go (fu : Nat) (X : List Char) (c : Char) (Y : List Char)
    (hd : dropWs X = c :: Y) (hc : c ≠ ']') :
    parseValue (fu + 1) ('[' :: X)
      = (parseElems fu X).map (fun p => (Json.jarr p.1, p.2)) := by
  show (match dropWs X with
        | ']' :: r1 => some (Json.jarr [], r1)
        | _ => (parseElems fu X).map (fun p => (Json.jarr p.1, p.2)))
      = (parseElems fu X).map (fun p => (Json.jarr p.1, p.2))
  rw [hd]
  split
  · rename_i heq
    rw [List.cons.injEq] at heq
    exact absurd heq.1 hc
  · rfl

/-- The fuelled parser undoes the serializer: a number-free value followed by
any continuation parses back exactly, and likewise for nonempty field lists
terminated by a closing brace and nonempty element lists terminated by a
closing bracket.  The fuel bounds are measured by serialized length. -/
theorem parse_stringify_all : ∀ fu : Nat,
    (∀ j r, noNum j = true → (stringifyJson j).length ≤ fu →
       parseValue fu (stringifyJson j ++ r) = some (j, r)) ∧
    (∀ fs r, fs ≠ [] → noNumFields fs = true → (stringifyFields fs).length ≤ fu →
       parseFields fu (stringifyFields fs ++ '\x7d' :: r) = some (fs, r)) ∧
    (∀ es r, es ≠ [] → noNumList es = true → (stringifyElems es).length < fu →
       parseElems fu (stringifyElems es ++ ']' :: r) = some (es, r)) := by
  intro fu
  induction fu with
  | zero =>
    refine ⟨?_, ?_, ?_⟩
    · intro j r hno hlen
      have := stringifyJson_length_pos j hno
      omega
    · intro fs r hne hno hlen
      have := stringifyFields_length_pos fs hne
      omega
    · intro es r hne hno hlen
      omega
  | succ fu ih =>
    obtain ⟨ihP, ihF, ihE⟩ := ih
    refine ⟨?_, ?_, ?_⟩
    · -- parseValue step
      intro j r hno hlen
      cases j with
      | jnull => rfl
      | jbool b => cases b <;> rfl
      | jnum lx => simp [noNum] at hno
      | jstr s =>
        have hs : stringifyJson (.jstr s) = '"' :: (escStr s ++ ['"']) := by
          simp [stringifyJson]
        rw [hs, List.cons_append, List.append_assoc, List.singleton_append]
        show (parseStringBody (escStr s ++ '"' :: r)).map (fun p => (Json.jstr p.1, p.2))
            = some (Json.jstr s, r)
        rw [parseStringBody_escStr]
        rfl
      | jarr es =>
        cases es with
        | nil => rfl
        | cons e es' =>
          have hs : stringifyJson (.jarr (e :: es')) = '[' :: (stringifyElems (e :: es') ++ [']']) := by
            simp [stringifyJson]
          have hnoL : noNumList (e :: es') = true := by simpa [noNum] using hno
          have hnoe : noNum e = true := by
            rw [noNumList_cons, Bool.and_eq_true] at hnoL; exact hnoL.1
          obtain ⟨c, t, he, hws, hc1, -, -⟩ := stringifyJson_head e hnoe
          obtain ⟨u, hu⟩ := stringifyElems_cons_ex e es'
          have hlenE : (stringifyElems (e :: es')).length < fu := by
            rw [hs] at hlen; simp at hlen; omega
          rw [hs, List.cons_append, List.append_assoc, List.singleton_append]
          have hdrop : dropWs (stringifyElems (e :: es') ++ ']' :: r)
              = c :: (t ++ (u ++ ']' :: r)) := by
            rw [hu, he, List.append_assoc, List.cons_append]
            exact dropWs_cons_not_ws hws _
          rw [parseValue_bracket_go fu _ c _ hdrop hc1,
            ihE (e :: es') r (by simp) hnoL hlenE]
          rfl
      | jobj fs =>
        cases fs with
        | nil => rfl
        | cons f fs' =>
          obtain ⟨k, v⟩ := f
          have hs : stringifyJson (.jobj ((k, v) :: fs'))
              = '\x7b' :: (stringifyFields ((k, v) :: fs') ++ ['\x7d']) := by
            simp [stringifyJson]
          have hnoF : noNumFields ((k, v) :: fs') = true := by simpa [noNum] using hno
          obtain ⟨t, ht⟩ := stringifyFields_head k v fs'
          have hlenF : (stringifyFields ((k, v) :: fs')).length ≤ fu := by
            rw [hs] at hlen; simp at hlen; omega
          rw [hs, List.cons_append, List.append_assoc, List.singleton_append]
          have hdrop : dropWs (stringifyFields ((k, v) :: fs') ++ '\x7d' :: r)
              = '"' :: (t ++ '\x7d' :: r) := by
            rw [ht, List.cons_append]
            exact dropWs_cons_not_ws (by decide) _
          rw [parseValue_brace_go fu _ '"' _ hdrop (by decide),
            ihF ((k, v) :: fs') r (by simp) hnoF hlenF]
          rfl
    · -- parseFields step
      intro fs r hne hno hlen
      match fs with
      | [] => exact absurd rfl hne
      | (k, v) :: fs' =>
        have hnov : noNum v = true := by
          rw [noNumFields_cons, Bool.and_eq_true] at hno; exact hno.1
        cases fs' with
        | nil =>
          have hsf : stringifyFields [(k, v)] ++ '\x7d' :: r
              = '"' :: (escStr k ++ ('"' :: (':' :: (stringifyJson v ++ '\x7d' :: r)))) := by
            simp [stringifyFields, List.append_assoc]
          have hlv : (stringifyJson v).length ≤ fu := by
            have hL : (stringifyFields [(k, v)]).length
                = (escStr k).length + (stringifyJson v).length + 3 := by
              simp [stringifyFields]; omega
            omega
          rw [hsf]
          show (match parseStringBody (escStr k ++ ('"' :: (':' :: (stringifyJson v ++ '\x7d' :: r)))) with
                | none => none
                | some (k, r1) =>
                  (match dropWs r1 with
                   | ':' :: r2 =>
                     (match parseValue fu r2 with
                      | none => none
                      | some (v, r3) =>
                        (match dropWs r3 with
                         | ',' :: r4 => (parseFields fu r4).map (fun p => ((k, v) :: p.1, p.2))
                         | '\x7d' :: r4 => some ([(k, v)], r4)
                         | _ => none))
                   | _ => none))
              = some ([(k, v)], r)
          rw [parseStringBody_escStr]
          show (match parseValue fu (stringifyJson v ++ '\x7d' :: r) with
                | none => none
                | some (v2, r3) =>
                  (match dropWs r3 with
                   | ',' :: r4 => (parseFields fu r4).map (fun p => ((k, v2) :: p.1, p.2))
                   | '\x7d' :: r4 => some ([(k, v2)], r4)
                   | _ => none))
              = some ([(k, v)], r)
          rw [ihP v ('\x7d' :: r) hnov hlv]
          rfl
        | cons f2 fs'' =>
          obtain ⟨k2, v2⟩ := f2
          have hnofs : noNumFields ((k2, v2) :: fs'') = true := by
            rw [noNumFields_cons, Bool.and_eq_true] at hno; exact hno.2
          have hL : (stringifyFields ((k, v) :: (k2, v2) :: fs'')).length
              = (escStr k).length + (stringifyJson v).length
                + (stringifyFields ((k2, v2) :: fs'')).length + 4 := by
            simp [stringifyFields]; omega
          have hlv : (stringifyJson v).length ≤ fu := by omega
          have hlf : (stringifyFields ((k2, v2) :: fs'')).length ≤ fu := by omega
          have hsf : stringifyFields ((k, v) :: (k2, v2) :: fs'') ++ '\x7d' :: r
              = '"' :: (escStr k ++ ('"' :: (':' :: (stringifyJson v ++
                  ',' :: (stringifyFields ((k2, v2) :: fs'') ++ '\x7d' :: r))))) := by
            simp [stringifyFields, List.append_assoc]
          rw [hsf]
          show (match parseStringBody (escStr k ++ ('"' :: (':' :: (stringifyJson v ++
                  ',' :: (stringifyFields ((k2, v2) :: fs'') ++ '\x7d' :: r))))) with
                | none => none
                | some (k, r1) =>
                  (match dropWs r1 with
                   | ':' :: r2 =>
                     (match parseValue fu r2 with
                      | none => none
                      | some (v, r3) =>
                        (match dropWs r3 with
                         | ',' :: r4 => (parseFields fu r4).map (fun p => ((k, v) :: p.1, p.2))
                         | '\x7d' :: r4 => some ([(k, v)], r4)
                         | _ => none))
                   | _ => none))
              = some ((k, v) :: (k2, v2) :: fs'', r)
          rw [parseStringBody_escStr]
          show (match parseValue fu (stringifyJson v ++
                  ',' :: (stringifyFields ((k2, v2) :: fs'') ++ '\x7d' :: r)) with
                | none => none
                | some (v2, r3) =>
                  (match dropWs r3 with
                   | ',' :: r4 => (parseFields fu r4).map (fun p => ((k, v2) :: p.1, p.2))
                   | '\x7d' :: r4 => some ([(k, v2)], r4)
                   | _ => none))
              = some ((k, v) :: (k2, v2) :: fs'', r)
          rw [ihP v _ hnov hlv]
          show (parseFields fu (stringifyFields ((k2, v2) :: fs'') ++ '\x7d' :: r)).map
                (fun p => ((k, v) :: p.1, p.2))
              = some ((k, v) :: (k2, v2) :: fs'', r)
          rw [ihF ((k2, v2) :: fs'') r (by simp) hnofs hlf]
          rfl
    · -- parseElems step
      intro es r hne hno hlen
      match es with
      | [] => exact absurd rfl hne
      | e :: es' =>
        have hnoe : noNum e = true := by
          rw [noNumList_cons, Bool.and_eq_true] at hno; exact hno.1
        cases es' with
        | nil =>
          have hse : stringifyElems [e] = stringifyJson e := by simp [stringifyElems]
          have hle : (stringifyJson e).length ≤ fu := by
            rw [hse] at hlen; omega
          rw [hse]
          show (match parseValue fu (stringifyJson e ++ ']' :: r) with
                | none => none
                | some (v, r1) =>
                  (match dropWs r1 with
                   | ',' :: r2 => (parseElems fu r2).map (fun p => (v :: p.1, p.2))
                   | ']' :: r2 => some ([v], r2)
                   | _ => none))
              = some ([e], r)
          rw [ihP e (']' :: r) hnoe hle]
          rfl
        | cons e2 es'' =>
          have hnoes : noNumList (e2 :: es'') = true := by
            rw [noNumList_cons, Bool.and_eq_true] at hno; exact hno.2
          have hse : stringifyElems (e :: e2 :: es'')
              = stringifyJson e ++ ',' :: stringifyElems (e2 :: es'') := by
            simp [stringifyElems]
          have hL : (stringifyElems (e :: e2 :: es'')).length
              = (stringifyJson e).length + (stringifyElems (e2 :: es'')).length + 1 := by
            rw [hse]; simp only [List.length_append, List.length_cons]; omega
          have hle : (stringifyJson e).length ≤ fu := by omega
          have hlE : (stringifyElems (e2 :: es'')).length < fu := by omega
          rw [hse, List.append_assoc, List.cons_append]
          show (match parseValue fu (stringifyJson e ++
                  ',' :: (stringifyElems (e2 :: es'') ++ ']' :: r)) with
                | none => none
                | some (v, r1) =>
                  (match dropWs r1 with
                   | ',' :: r2 => (parseElems fu r2).map (fun p => (v :: p.1, p.2))
                   | ']' :: r2 => some ([v], r2)
                   | _ => none))
              = some (e :: e2 :: es'', r)
          rw [ihP e _ hnoe hle]
          show (parseElems fu (stringifyElems (e2 :: es'') ++ ']' :: r)).map
                (fun p => (e :: p.1, p.2))
              = some (e :: e2 :: es'', r)
          rw [ihE (e2 :: es'') r (by simp) hnoes hlE]
          rfl

/-- `JSON.parse` recovers every number-free value from its serialization. -/
theorem parseTop_stringify (j : Json) (hno : noNum j = true) :
    parseTop (stringifyJson j) = some j := by
  have h := (parse_stringify_all ((stringifyJson j).length + 1)).1 j [] hno (by omega)
  rw [List.append_nil] at h
  unfold parseTop
  rw [h]
  rfl

/-! ## The serialized response object is number-free -/

theorem noNum_jobj (fs : List (List Char × Json)) : noNum (.jobj fs) = noNumFields fs := by
  simp [noNum]

theorem noNumFields_append : ∀ (a b : List (List Char × Json)),
    noNumFields (a ++ b) = (noNumFields a && noNumFields b) := by
  intro a b
  induction a with
  | nil => simp [noNumFields]
  | cons f a' ih =>
    obtain ⟨k, v⟩ := f
    rw [List.cons_append, noNumFields_cons, noNumFields_cons, ih, Bool.and_assoc]

theorem noNum_slangEntry (e : SlangEntry) : noNum e.toJson = true := by
  simp [SlangEntry.toJson, noNum, noNumFields]

theorem noNumList_map_entry : ∀ es : List SlangEntry,
    noNumList (es.map SlangEntry.toJson) = true := by
  intro es
  induction es with
  | nil => simp [noNumList]
  | cons e es' ih =>
    rw [List.map_cons, noNumList_cons, ih, noNum_slangEntry]
    rfl

/-- Every JSON object a schema-honouring model can emit is number-free. -/
theorem noNum_toJson (o : TranslationResult) : noNum o.toJson = true := by
  unfold TranslationResult.toJson
  rcases o.transliteration with _ | tr <;> rcases o.detectedLanguage with _ | dl <;>
    simp [noNum_jobj, noNumFields_append, noNumFields, noNum, noNumList_map_entry]

/-- Finalizing the complete serialization of a schema-valid object returns
exactly its JSON value: `JSON.parse` undoes the serialization and the cast
adds no validation. -/
theorem finalizeStream_serialize (o : TranslationResult) (onLine : Bool) :
    finalizeStream (serializeResult o) onLine = .ok o.toJson := by
  unfold finalizeStream serializeResult
  rw [parseTop_stringify _ (noNum_toJson o)]

/-! ## Accumulation points are prefixes of the full buffer -/

theorem accumAll_prefix : ∀ (fs : List (List Char)) (acc : List Char),
    acc <+: accumAll acc fs := by
  intro fs
  induction fs with
  | nil => intro acc; exact List.prefix_refl _
  | cons f fs' ih =>
    intro acc
    by_cases hf : f = []
    · subst hf
      simpa [accumAll] using ih acc
    · have h1 : accumAll acc (f :: fs') = accumAll (acc ++ f) fs' := by
        simp [accumAll, hf]
      rw [h1]
      exact (List.prefix_append acc f).trans (ih (acc ++ f))

theorem accumsAfter_prefix : ∀ (fs : List (List Char)) (acc B : List Char),
    B ∈ accumsAfter acc fs → B <+: accumAll acc fs := by
  intro fs
  induction fs with
  | nil => intro acc B hB; simp [accumsAfter] at hB
  | cons f fs' ih =>
    intro acc B hB
    by_cases hf : f = []
    · subst hf
      simp only [accumsAfter, if_pos rfl] at hB
      simpa [accumAll] using ih acc B hB
    · simp only [accumsAfter, if_neg hf, List.mem_cons] at hB
      have h1 : accumAll acc (f :: fs') = accumAll (acc ++ f) fs' := by
        simp [accumAll, hf]
      rw [h1]
      rcases hB with rfl | hB
      · exact accumAll_prefix fs' (acc ++ f)
      · exact ih (acc ++ f) B hB

set_option maxRecDepth 4000 in
/-- C2 (counterexample): a schema-valid object whose `translatedText` contains
a backslash refutes part (b) of the claim: on the fully accumulated buffer of
an in-order fragmentation of the serialization (a single fragment here),
extraction delivers the still-escaped span `a\\b`, not the field value `a\b`
— the code undoes only the `\n` and `\"` escapes. -/
theorem C2_counterexample :
    accumAll [] [serializeResult (⟨['a', '\\', 'b'], none, [], [], [], none⟩ : TranslationResult)]
        = serializeResult (⟨['a', '\\', 'b'], none, [], [], [], none⟩ : TranslationResult) ∧
    extractDecoded (serializeResult (⟨['a', '\\', 'b'], none, [], [], [], none⟩ : TranslationResult))
        ≠ some (⟨['a', '\\', 'b'], none, [], [], [], none⟩ : TranslationResult).translatedText := by
  constructor
  · rfl
  · decide

/-- C2 (amended): for a schema-valid object `O` whose `translatedText`
contains no backslash and no control character other than the newline, and
any in-order fragmentation of `serialize(O)`: (a) at every accumulation
point extraction yields nothing or exactly `O.translatedText` (in particular
always a prefix of it), (b) extraction on the fully accumulated buffer
yields exactly `O.translatedText`, and (c) finalization of the session
returns exactly the JSON value of `O`.  Without the restriction on
`translatedText`, (a) and (b) fail: any other escape in the serialized text
is delivered undecoded. -/
theorem C2_amended (o : TranslationResult) (onLine : Bool) (fs : List (List Char))
    (hsafe : ∀ c ∈ o.translatedText, safeTextChar c = true)
    (hfrag : accumAll [] fs = serializeResult o) :
    (∀ B ∈ accumsAfter [] fs,
       extractDecoded B = none ∨ extractDecoded B = some o.translatedText) ∧
    extractDecoded (serializeResult o) = some o.translatedText ∧
    (translateWithSlangStream (.success fs) onLine).1 = .ok o.toJson := by
  obtain ⟨rest, hshape⟩ := serializeResult_shape o
  refine ⟨?_, ?_, ?_⟩
  · intro B hB
    have hpre : B <+: serializeResult o := hfrag ▸ accumsAfter_prefix fs [] B hB
    rw [hshape] at hpre
    have hsplit : '\x7b' :: (litChars ++ ('"' :: (escStr o.translatedText ++ ('"' :: rest))))
        = ('\x7b' :: (litChars ++ ('"' :: escStr o.translatedText))) ++ ('"' :: rest) := by
      simp [List.append_assoc]
    rw [hsplit] at hpre
    rcases prefix_append_cases hpre with hl | ⟨z, hz, rfl⟩
    · left
      unfold extractDecoded
      rw [extract_serialized_prefix_none o.translatedText B hl]
      rfl
    · cases z with
      | nil =>
        left
        unfold extractDecoded
        rw [List.append_nil,
          extract_serialized_prefix_none o.translatedText _ (List.prefix_refl _)]
        rfl
      | cons z0 z1 =>
        obtain ⟨rfl, -⟩ := List.cons_prefix_cons.mp hz
        right
        unfold extractDecoded
        have hre : ('\x7b' :: (litChars ++ ('"' :: escStr o.translatedText))) ++ '"' :: z1
            = '\x7b' :: (litChars ++ ('"' :: (escStr o.translatedText ++ ('"' :: z1)))) := by
          simp [List.append_assoc]
        rw [hre, extractRaw_serialized]
        simp [decodeJs_escStr_safe hsafe]
  · unfold extractDecoded
    rw [hshape, extractRaw_serialized]
    simp [decodeJs_escStr_safe hsafe]
  · show finalizeStream (accumAll [] fs) onLine = .ok o.toJson
    rw [hfrag]
    exact finalizeStream_serialize o onLine

set_option maxRecDepth 4000 in
/-- C2 (amended, witness): the amended theorem instantiated on a concrete
safe object delivered as a single fragment. -/
theorem C2_amended_witness :
    (∀ B ∈ accumsAfter []
        [serializeResult (⟨("hi").data, none, ("e").data, [], ("v").data, none⟩ : TranslationResult)],
       extractDecoded B = none ∨ extractDecoded B = some (("hi").data)) ∧
    extractDecoded (serializeResult
        (⟨("hi").data, none, ("e").data, [], ("v").data, none⟩ : TranslationResult))
      = some (("hi").data) ∧
    (translateWithSlangStream (.success
        [serializeResult (⟨("hi").data, none, ("e").data, [], ("v").data, none⟩ : TranslationResult)])
      true).1
      = .ok (TranslationResult.toJson
          (⟨("hi").data, none, ("e").data, [], ("v").data, none⟩ : TranslationResult)) :=
  C2_amended (⟨("hi").data, none, ("e").data, [], ("v").data, none⟩ : TranslationResult) true
    [serializeResult (⟨("hi").data, none, ("e").data, [], ("v").data, none⟩ : TranslationResult)]
    (by decide) rfl
